import Mathlib

/-!
Verification of the dawn Markdown editor core (dawn.c, dawn_block.c) against
its natural-language specification.

The document text store is modelled as a list of bytes.  The gap buffer
implementation (dawn_gap.c) is not part of the sources; only its header
contract is.  Its logical behaviour — a byte sequence with positional
insert/delete, where `gap_at` returns 0 for out-of-range positions — is
modelled from the spec (§3.1) and the doc comments of dawn_gap.h.

ASCII byte values used throughout (as numerals):
10 newline, 32 space, 33 bang, 35 hash, 36 dollar, 40 lparen, 41 rparen,
42 star, 43 plus, 45 dash, 46 dot, 58 colon, 61 equals, 62 gt, 91 lbrack,
92 backslash, 93 rbrack, 94 caret, 95 underscore, 96 backtick,
123 lbrace, 124 pipe, 125 rbrace, 126 tilde.
-/

/-- A document buffer: the logical byte sequence held by the gap buffer. -/
abbrev Buf := List Nat

/-- Modelled from the spec: `len() → L` bytes of content (dawn_gap.h `gap_len`). -/
def gap_len (gb : Buf) : Nat := gb.length

/-- Modelled from the spec: `at(i)` returns the byte at logical position `i`,
or 0 (NUL) when out of bounds (dawn_gap.h `gap_at`). -/
def gap_at (gb : Buf) (pos : Nat) : Nat := gb.getD pos 0

/-- Modelled from the spec: `insert(i, byte)` shifts logical positions ≥ i
forward by one (dawn_gap.h `gap_insert`). -/
def gap_insert (gb : Buf) (pos : Nat) (c : Nat) : Buf :=
  gb.take pos ++ c :: gb.drop pos

/-- Modelled from the spec: `insert_str(i, bytes)` (dawn_gap.h `gap_insert_str`). -/
def gap_insert_str (gb : Buf) (pos : Nat) (s : Buf) : Buf :=
  gb.take pos ++ s ++ gb.drop pos

/-- Modelled from the spec: `delete(i, n)` removes bytes `[i, i+n)`
(dawn_gap.h `gap_delete`). -/
def gap_delete (gb : Buf) (pos : Nat) (n : Nat) : Buf :=
  gb.take pos ++ gb.drop (pos + n)

/-- Modelled from the spec: `copy_to(i, n, dst)` extracts a contiguous slice
(dawn_gap.h `gap_copy_to`). -/
def gap_copy_to (gb : Buf) (start : Nat) (count : Nat) : Buf :=
  (gb.drop start).take count

/-- Whether a byte is a UTF-8 continuation byte (10xxxxxx). -/
def utf8_is_cont (b : Nat) : Bool := 128 ≤ b && b < 192

/-- Modelled from the spec: `utf8_prev(i)` snaps to the previous codepoint
start (dawn_gap.h `gap_utf8_prev`): step back one byte, then keep stepping
over continuation bytes. -/
def gap_utf8_prev (gb : Buf) (pos : Nat) : Nat :=
  match pos with
  | 0 => 0
  | p + 1 => gap_utf8_prev_aux gb p
where
  /-- Step backwards over continuation bytes. -/
  gap_utf8_prev_aux (gb : Buf) : Nat → Nat
  | 0 => 0
  | p + 1 => if utf8_is_cont (gap_at gb (p + 1)) then gap_utf8_prev_aux gb p else p + 1

-- #region Undo/Redo (dawn.c, dawn_types.h)

/-- dawn_types.h: `#define MAX_UNDO 100`, the undo ring capacity. -/
def MAX_UNDO : Nat := 100

/-- One entry of the undo ring: a full copy of the document bytes and the
cursor at snapshot time (dawn_types.h `undo_stack` entries). -/
structure UndoEntry where
  text : Buf
  cursor : Nat
deriving DecidableEq

/-- The slice of the global `App` state that the undo/redo operations touch:
document bytes, cursor, and the undo ring.  `undo_count` of the C struct is
`undo_stack.length` here. -/
structure EditorState where
  text : Buf
  cursor : Nat
  undo_stack : List UndoEntry
  undo_pos : Nat
deriving DecidableEq

/-- dawn.c `save_undo_state`: drop redo entries past `undo_pos`, drop the
oldest entry at capacity, then append a snapshot of the current text and
cursor and point `undo_pos` at it.  Allocation is modelled as succeeding
(on allocation failure the C code silently skips the append, spec §7). -/
def save_undo_state (s : EditorState) : EditorState :=
  let stack1 := if s.undo_pos + 1 < s.undo_stack.length
                then s.undo_stack.take (s.undo_pos + 1) else s.undo_stack
  let stack2 := if MAX_UNDO ≤ stack1.length then stack1.drop 1 else stack1
  { s with undo_stack := stack2 ++ [⟨s.text, s.cursor⟩], undo_pos := stack2.length }

/-- dawn.c `restore_undo_state`: replace the whole buffer by the snapshot at
`pos` and clamp the cursor to the new length. -/
def restore_undo_state (s : EditorState) (pos : Nat) : EditorState :=
  { s with text := (s.undo_stack.getD pos ⟨[], 0⟩).text,
           cursor := min (s.undo_stack.getD pos ⟨[], 0⟩).cursor
                         (s.undo_stack.getD pos ⟨[], 0⟩).text.length }

/-- dawn.c `undo`: if `undo_pos > 0`, decrement it and restore that snapshot. -/
def undo (s : EditorState) : EditorState :=
  if 0 < s.undo_pos then
    restore_undo_state { s with undo_pos := s.undo_pos - 1 } (s.undo_pos - 1)
  else s

/-- dawn.c `redo`: if `undo_pos < undo_count - 1`, increment it and restore
that snapshot. -/
def redo (s : EditorState) : EditorState :=
  if s.undo_pos + 1 < s.undo_stack.length then
    restore_undo_state { s with undo_pos := s.undo_pos + 1 } (s.undo_pos + 1)
  else s

theorem save_undo_state_spec (s : EditorState)
    (hpos : s.undo_pos + 1 = s.undo_stack.length)
    (hcap : s.undo_stack.length < MAX_UNDO) :
    save_undo_state s =
      { s with undo_stack := s.undo_stack ++ [UndoEntry.mk s.text s.cursor],
               undo_pos := s.undo_stack.length } := by
  have h1 : ¬ (s.undo_pos + 1 < s.undo_stack.length) := by omega
  have h2 : ¬ (MAX_UNDO ≤ s.undo_stack.length) := Nat.not_le.mpr hcap
  simp only [save_undo_state, h1, if_false, h2]

theorem undo_getD_append_last :
    ∀ (l : List UndoEntry) (e d : UndoEntry), (l ++ [e]).getD l.length d = e
  | [], _, _ => rfl
  | _ :: l, e, d => undo_getD_append_last l e d

theorem undo_getD_append_left :
    ∀ (l l2 : List UndoEntry) (i : Nat), i < l.length →
      ∀ d, (l ++ l2).getD i d = l.getD i d
  | _ :: _, _, 0, _, _ => rfl
  | _ :: l, l2, i + 1, h, d =>
      undo_getD_append_left l l2 i (Nat.lt_of_succ_lt_succ h) d

/-- C1 (amended): after `save_undo_state()` and an arbitrary buffer mutation,
`undo()` does not restore the pre-mutation snapshot: it restores the snapshot
saved before it (the last entry of the stack as it was before the save), and
the following `redo()` restores the pre-mutation snapshot (bytes, and cursor
clamped to them), not the post-mutation state.  Hypotheses: the ring is in
its normal shape (`undo_pos` at the top), below capacity, and nonempty. -/
theorem C1_undo_then_redo_after_save (s : EditorState) (t2 : Buf) (c2 : Nat)
    (hpos : s.undo_pos + 1 = s.undo_stack.length)
    (hcap : s.undo_stack.length < MAX_UNDO)
    (hne : 0 < s.undo_stack.length) :
    (undo { save_undo_state s with text := t2, cursor := c2 }).text
        = (s.undo_stack.getD (s.undo_stack.length - 1) (UndoEntry.mk [] 0)).text ∧
    (undo { save_undo_state s with text := t2, cursor := c2 }).cursor
        = min (s.undo_stack.getD (s.undo_stack.length - 1) (UndoEntry.mk [] 0)).cursor
              (s.undo_stack.getD (s.undo_stack.length - 1) (UndoEntry.mk [] 0)).text.length ∧
    (redo (undo { save_undo_state s with text := t2, cursor := c2 })).text
        = s.text ∧
    (redo (undo { save_undo_state s with text := t2, cursor := c2 })).cursor
        = min s.cursor s.text.length := by
  have hsave := save_undo_state_spec s hpos hcap
  have hundo :
      undo { save_undo_state s with text := t2, cursor := c2 } =
        { text :=
            (s.undo_stack.getD (s.undo_stack.length - 1) (UndoEntry.mk [] 0)).text,
          cursor :=
            min (s.undo_stack.getD (s.undo_stack.length - 1) (UndoEntry.mk [] 0)).cursor
              (s.undo_stack.getD (s.undo_stack.length - 1) (UndoEntry.mk [] 0)).text.length,
          undo_stack := s.undo_stack ++ [UndoEntry.mk s.text s.cursor],
          undo_pos := s.undo_stack.length - 1 } := by
    rw [hsave]
    show undo (EditorState.mk t2 c2
      (s.undo_stack ++ [UndoEntry.mk s.text s.cursor]) s.undo_stack.length) = _
    unfold undo restore_undo_state
    rw [if_pos hne,
      undo_getD_append_left _ _ _ (Nat.sub_lt hne Nat.one_pos)]
  have hlen1 : s.undo_stack.length - 1 + 1 = s.undo_stack.length :=
    Nat.sub_add_cancel hne
  have hcond : s.undo_stack.length - 1 + 1 <
      (s.undo_stack ++ [UndoEntry.mk s.text s.cursor]).length := by
    rw [hlen1, List.length_append, List.length_singleton]
    omega
  have hredo :
      redo (EditorState.mk
        (s.undo_stack.getD (s.undo_stack.length - 1) (UndoEntry.mk [] 0)).text
        (min (s.undo_stack.getD (s.undo_stack.length - 1) (UndoEntry.mk [] 0)).cursor
          (s.undo_stack.getD (s.undo_stack.length - 1) (UndoEntry.mk [] 0)).text.length)
        (s.undo_stack ++ [UndoEntry.mk s.text s.cursor])
        (s.undo_stack.length - 1)) =
      EditorState.mk s.text (min s.cursor s.text.length)
        (s.undo_stack ++ [UndoEntry.mk s.text s.cursor]) s.undo_stack.length := by
    unfold redo restore_undo_state
    rw [if_pos hcond, hlen1, undo_getD_append_last]
  rw [hundo]
  exact ⟨rfl, rfl, by rw [hredo], by rw [hredo]⟩

/-- Witness for C1: the amended behaviour at a concrete input.  Start with a
one-entry ring holding the empty document, text "ab", cursor 2; save, then
mutate to "abc"; undo lands on the empty snapshot, and redo restores "ab". -/
theorem C1_witness :
    (undo { save_undo_state ⟨[97, 98], 2, [⟨[], 0⟩], 0⟩ with
        text := [97, 98, 99], cursor := 3 }).text = [] ∧
    (undo { save_undo_state ⟨[97, 98], 2, [⟨[], 0⟩], 0⟩ with
        text := [97, 98, 99], cursor := 3 }).cursor = min 0 0 ∧
    (redo (undo { save_undo_state ⟨[97, 98], 2, [⟨[], 0⟩], 0⟩ with
        text := [97, 98, 99], cursor := 3 })).text = [97, 98] ∧
    (redo (undo { save_undo_state ⟨[97, 98], 2, [⟨[], 0⟩], 0⟩ with
        text := [97, 98, 99], cursor := 3 })).cursor = min 2 2 :=
  C1_undo_then_redo_after_save ⟨[97, 98], 2, [⟨[], 0⟩], 0⟩ [97, 98, 99] 3
    (by decide) (by decide) (by decide)

/-- Counterexample for C1 as stated: with document "ab", cursor 2 and a
one-entry history, `save_undo_state(); insert 'c'; undo()` leaves the text
empty instead of the pre-mutation "ab", and `undo(); redo()` yields the
pre-mutation "ab" instead of the post-mutation "abc". -/
theorem C1_counterexample :
    (undo { save_undo_state ⟨[97, 98], 2, [⟨[], 0⟩], 0⟩ with
        text := [97, 98, 99], cursor := 3 }).text ≠ [97, 98] ∧
    (redo (undo { save_undo_state ⟨[97, 98], 2, [⟨[], 0⟩], 0⟩ with
        text := [97, 98, 99], cursor := 3 })).text ≠ [97, 98, 99] := by
  decide

-- #endregion

-- #region Line helpers (dawn.c, dawn_block.c)

/-- dawn.c `find_line_start`: walk back from the cursor to the byte after the
previous newline (or 0). -/
def find_line_start (gb : Buf) : Nat → Nat
  | 0 => 0
  | r + 1 => if gap_at gb r = 10 then r + 1 else find_line_start gb r

/-- dawn_block.c `is_at_line_start`: position 0 or just after a newline. -/
def is_at_line_start (gb : Buf) (pos : Nat) : Bool :=
  pos = 0 || gap_at gb (pos - 1) = 10

/-- Fuelled loop of `find_line_end`.  The fuel only bounds the iteration
count; with fuel at least `gb.length - pos` it never runs out before the
loop guard stops the scan. -/
def find_line_end_go (gb : Buf) : Nat → Nat → Nat
  | 0, pos => pos
  | f + 1, pos =>
      if pos < gb.length ∧ gap_at gb pos ≠ 10 then find_line_end_go gb f (pos + 1)
      else pos

/-- dawn_block.c `find_line_end`: first newline at or after `pos`, or the end
of the buffer. -/
def find_line_end (gb : Buf) (pos : Nat) : Nat :=
  find_line_end_go gb (gb.length - pos) pos

/-- Fuelled loop counting consecutive space bytes at `pos`. -/
def count_spaces_go (gb : Buf) : Nat → Nat → Nat
  | 0, _ => 0
  | f + 1, pos =>
      if pos < gb.length ∧ gap_at gb pos = 32 then count_spaces_go gb f (pos + 1) + 1
      else 0

/-- Number of consecutive space bytes starting at `pos`. -/
def count_spaces (gb : Buf) (pos : Nat) : Nat :=
  count_spaces_go gb (gb.length - pos) pos

/-- Fuelled loop counting consecutive ASCII digit bytes at `pos`. -/
def count_digits_go (gb : Buf) : Nat → Nat → Nat
  | 0, _ => 0
  | f + 1, pos =>
      if pos < gb.length ∧ 48 ≤ gap_at gb pos ∧ gap_at gb pos ≤ 57 then
        count_digits_go gb f (pos + 1) + 1
      else 0

/-- Number of consecutive ASCII digit bytes starting at `pos`. -/
def count_digits (gb : Buf) (pos : Nat) : Nat :=
  count_digits_go gb (gb.length - pos) pos

/-- Fuelled loop counting consecutive `>` bytes at `pos`. -/
def count_gts_go (gb : Buf) : Nat → Nat → Nat
  | 0, _ => 0
  | f + 1, pos =>
      if pos < gb.length ∧ gap_at gb pos = 62 then count_gts_go gb f (pos + 1) + 1
      else 0

/-- Number of consecutive `>` bytes starting at `pos`. -/
def count_gts (gb : Buf) (pos : Nat) : Nat :=
  count_gts_go gb (gb.length - pos) pos

/-- Fuelled loop reading a decimal number at `pos`. -/
def read_number_go (gb : Buf) : Nat → Nat → Nat → Nat
  | 0, _, acc => acc
  | f + 1, pos, acc =>
      if pos < gb.length ∧ 48 ≤ gap_at gb pos ∧ gap_at gb pos ≤ 57 then
        read_number_go gb f (pos + 1) (acc * 10 + (gap_at gb pos - 48))
      else acc

/-- Read a decimal number at `pos` (dawn.c handle_writing ordered-list branch:
`num = num * 10 + digit` while digits last). -/
def read_number_aux (gb : Buf) (pos acc : Nat) : Nat :=
  read_number_go gb (gb.length - pos) pos acc

/-- Decimal digits of `n` as ASCII bytes (snprintf `%d` for a nonneg int). -/
def nat_digits_aux (fuel n : Nat) (acc : List Nat) : List Nat :=
  match fuel with
  | 0 => acc
  | f + 1 => if n = 0 then acc else nat_digits_aux f (n / 10) ((n % 10 + 48) :: acc)

/-- Decimal representation of `n` as ASCII bytes. -/
def nat_digits (n : Nat) : List Nat :=
  if n = 0 then [48] else nat_digits_aux n n []

-- #endregion

-- #region Markdown list/task/blockquote recognizers (dawn_md.c, not in src)

/-- Modelled from the spec: `check_list(pos)` accepts iff line-start, optional
spaces, then `-`, `*`, `+`, or digits plus `.`/`)`, then space; returns
`(list_type, content_start, indent)` with list_type 1 = unordered,
2 = ordered (dawn_md.h `md_check_list`; the implementation file dawn_md.c is
not under src). -/
def md_check_list (gb : Buf) (pos : Nat) : Option (Nat × Nat × Nat) :=
  if ¬ is_at_line_start gb pos then none
  else
    let indent := count_spaces gb pos
    let m := pos + indent
    if (gap_at gb m = 45 ∨ gap_at gb m = 42 ∨ gap_at gb m = 43) ∧
        gap_at gb (m + 1) = 32 then
      some (1, m + 2, indent)
    else
      let d := count_digits gb m
      if 0 < d ∧ (gap_at gb (m + d) = 46 ∨ gap_at gb (m + d) = 41) ∧
          gap_at gb (m + d + 1) = 32 then
        some (2, m + d + 2, indent)
      else none

/-- Modelled from the spec: `check_task(pos)` accepts iff a list item whose
content starts with `[ ]`, `[x]`, or `[X]`; returns
`(state, content_start, indent)` with state 1 = unchecked, 2 = checked
(dawn_md.h `md_check_task`, implementation not in src). -/
def md_check_task (gb : Buf) (pos : Nat) : Option (Nat × Nat × Nat) :=
  match md_check_list gb pos with
  | some (_, lc, indent) =>
      if gap_at gb lc = 91 ∧
          (gap_at gb (lc + 1) = 32 ∨ gap_at gb (lc + 1) = 120 ∨
            gap_at gb (lc + 1) = 88) ∧
          gap_at gb (lc + 2) = 93 then
        some (if gap_at gb (lc + 1) = 32 then 1 else 2,
          (if gap_at gb (lc + 3) = 32 then lc + 4 else lc + 3), indent)
      else none
  | none => none

/-- Modelled from the spec: `check_blockquote(pos)` accepts iff line-start and
one or more `>`, optionally followed by a space; returns
`(level, content_start)` (dawn_md.h `md_check_blockquote`, implementation not
in src). -/
def md_check_blockquote (gb : Buf) (pos : Nat) : Option (Nat × Nat) :=
  if ¬ is_at_line_start gb pos then none
  else
    let lv := count_gts gb pos
    if 0 < lv then
      some (lv, pos + lv + (if gap_at gb (pos + lv) = 32 then 1 else 0))
    else none

-- #endregion

-- #region Smart-edit helpers (dawn.c)

/-- dawn.c `is_item_content_empty`: the item content is empty when the cursor
sits at the content start or the content begins with a newline. -/
def is_item_content_empty (gb : Buf) (cursor content_start : Nat) : Bool :=
  cursor = content_start ||
    (decide (content_start < gb.length) && gap_at gb content_start = 10)

/-- dawn.c `insert_str_at_cursor`: insert bytes one at a time at the cursor,
advancing it. -/
def insert_str_at_cursor (gb : Buf) (cursor : Nat) : Buf → Buf × Nat
  | [] => (gb, cursor)
  | c :: rest => insert_str_at_cursor (gap_insert gb cursor c) (cursor + 1) rest

/-- dawn.c `insert_chars_at_cursor`: insert `n` copies of a byte at the
cursor, advancing it. -/
def insert_chars_at_cursor (gb : Buf) (cursor c : Nat) : Nat → Buf × Nat
  | 0 => (gb, cursor)
  | n + 1 => insert_chars_at_cursor (gap_insert gb cursor c) (cursor + 1) c n

/-- dawn.c `handle_empty_list_item`: delete the marker (from line start to
cursor) and insert a newline. -/
def handle_empty_list_item (gb : Buf) (cursor line_start : Nat) : Buf × Nat :=
  let gb1 := gap_delete gb line_start (cursor - line_start)
  (gap_insert gb1 line_start 10, line_start + 1)

/-- Blockquote continuation: insert `"> "` repeated `level` times (dawn.c
handle_writing Enter case, quote branch loop). -/
def insert_quote_prefix (gb : Buf) (cursor : Nat) : Nat → Buf × Nat
  | 0 => (gb, cursor)
  | l + 1 =>
      match insert_str_at_cursor gb cursor [62, 32] with
      | (gb1, c1) => insert_quote_prefix gb1 c1 l

/-- dawn.c `handle_writing`, the Enter key case (`'\r'`/`'\n'`, lines
2932-2991), modelled on the no-selection editing path: auto-continue task
items, list items and blockquotes; an empty item becomes a blank line; else
insert a plain newline.  `save_undo_state` does not touch text or cursor and
is omitted here. -/
def handle_enter (gb : Buf) (cursor : Nat) : Buf × Nat :=
  let ls := find_line_start gb cursor
  match md_check_task gb ls with
  | some (_, tc, ti) =>
      if is_item_content_empty gb cursor tc then
        handle_empty_list_item gb cursor ls
      else
        let gb1 := gap_insert gb cursor 10
        match insert_chars_at_cursor gb1 (cursor + 1) 32 ti with
        | (gb2, c2) => insert_str_at_cursor gb2 c2 [45, 32, 91, 32, 93, 32]
  | none =>
  match md_check_list gb ls with
  | some (lt, lc, li) =>
      if is_item_content_empty gb cursor lc then
        handle_empty_list_item gb cursor ls
      else
        let gb1 := gap_insert gb cursor 10
        match insert_chars_at_cursor gb1 (cursor + 1) 32 li with
        | (gb2, c2) =>
          if lt = 1 then
            insert_str_at_cursor gb2 c2 [gap_at gb2 (ls + li), 32]
          else
            let num := read_number_aux gb2 (ls + li) 0
            insert_str_at_cursor gb2 c2 (nat_digits (num + 1) ++ [46, 32])
  | none =>
  match md_check_blockquote gb ls with
  | some (ql, qc) =>
      if is_item_content_empty gb cursor qc then
        handle_empty_list_item gb cursor ls
      else
        insert_quote_prefix (gap_insert gb cursor 10) (cursor + 1) ql
  | none => (gap_insert gb cursor 10, cursor + 1)

-- #endregion

-- #region C4, C6: Enter auto-continuation scenarios

/-- Counterexample for C4 as stated: in the buffer `"- one\n"` (6 bytes) the
position 6 is *after* the trailing newline, on an empty second line; Enter
there inserts a plain newline, giving `"- one\n\n"` with cursor 7, not
`"- one\n- "` with cursor 8. -/
theorem C4_counterexample :
    handle_enter [45, 32, 111, 110, 101, 10] 6 = ([45, 32, 111, 110, 101, 10, 10], 7) ∧
    handle_enter [45, 32, 111, 110, 101, 10] 6 ≠ ([45, 32, 111, 110, 101, 10, 45, 32], 8) := by
  decide

/-- C4 (amended): with the cursor at the end of the list line itself — buffer
`"- one"`, cursor 5 — Enter yields `"- one\n- "` with cursor 8; and with
buffer `"1. a"`, cursor 4, Enter yields `"1. a\n2. "` with cursor 8 (ordered
continuation uses the next integer). -/
theorem C4_enter_list_continuation :
    handle_enter [45, 32, 111, 110, 101] 5 = ([45, 32, 111, 110, 101, 10, 45, 32], 8) ∧
    handle_enter [49, 46, 32, 97] 4 = ([49, 46, 32, 97, 10, 50, 46, 32], 8) := by
  decide

/-- C6: with buffer `"- \n"` and cursor 2 (between the space and the
newline), Enter deletes the empty item marker and yields `"\n\n"` with
cursor 1. -/
theorem C6_enter_empty_item :
    handle_enter [45, 32, 10] 2 = ([10, 10], 1) := by
  decide

-- #endregion

-- #region Inline recognizers used by smart edits (dawn_md.c, not in src)

/-- Fuelled count of footnote-id bytes (anything but `]` and newline). -/
def count_fn_id_go (gb : Buf) : Nat → Nat → Nat
  | 0, _ => 0
  | f + 1, pos =>
      if pos < gb.length ∧ gap_at gb pos ≠ 93 ∧ gap_at gb pos ≠ 10 then
        count_fn_id_go gb f (pos + 1) + 1
      else 0

/-- Number of footnote-id bytes starting at `pos`. -/
def count_fn_id (gb : Buf) (pos : Nat) : Nat :=
  count_fn_id_go gb (gb.length - pos) pos

/-- Fuelled scan for a closing `]` with bracket balancing, failing on a
newline or end of buffer. -/
def find_close_bracket_go (gb : Buf) : Nat → Nat → Nat → Option Nat
  | 0, _, _ => none
  | f + 1, p, depth =>
      if p < gb.length then
        if gap_at gb p = 10 then none
        else if gap_at gb p = 91 then find_close_bracket_go gb f (p + 1) (depth + 1)
        else if gap_at gb p = 93 then
          if depth = 0 then some p else find_close_bracket_go gb f (p + 1) (depth - 1)
        else find_close_bracket_go gb f (p + 1) depth
      else none

/-- Fuelled scan for a closing `)`, failing on a newline or end of buffer. -/
def find_close_paren_go (gb : Buf) : Nat → Nat → Option Nat
  | 0, _ => none
  | f + 1, p =>
      if p < gb.length then
        if gap_at gb p = 10 then none
        else if gap_at gb p = 41 then some p
        else find_close_paren_go gb f (p + 1)
      else none

/-- Fuelled scan for a closing `}`, failing on a newline or end of buffer. -/
def find_close_brace_go (gb : Buf) : Nat → Nat → Option Nat
  | 0, _ => none
  | f + 1, p =>
      if p < gb.length then
        if gap_at gb p = 10 then none
        else if gap_at gb p = 125 then some p
        else find_close_brace_go gb f (p + 1)
      else none

/-- Fuelled scan for a closing `$` on the same line. -/
def find_dollar_close_go (gb : Buf) : Nat → Nat → Option Nat
  | 0, _ => none
  | f + 1, p =>
      if p < gb.length then
        if gap_at gb p = 10 then none
        else if gap_at gb p = 36 then some p
        else find_dollar_close_go gb f (p + 1)
      else none

/-- Whether the bytes of `key` occur at position `q`. -/
def bytes_match_at (gb : Buf) (q : Nat) : List Nat → Bool
  | [] => true
  | c :: rest => gap_at gb q = c && bytes_match_at gb (q + 1) rest

/-- Modelled from the spec: `check_link(pos)` accepts `[text](url)` where the
text is bracket-balanced with no newline; returns
`(text_start, text_len, url_start, url_len, total)` (dawn_md.h
`md_check_link`, implementation not in src). -/
def md_check_link (gb : Buf) (pos : Nat) :
    Option (Nat × Nat × Nat × Nat × Nat) :=
  if gap_at gb pos = 91 then
    match find_close_bracket_go gb (gb.length - (pos + 1)) (pos + 1) 0 with
    | some close =>
        if gap_at gb (close + 1) = 40 then
          match find_close_paren_go gb (gb.length - (close + 2)) (close + 2) with
          | some rp =>
              some (pos + 1, close - (pos + 1), close + 2, rp - (close + 2),
                rp + 1 - pos)
          | none => none
        else none
    | none => none
  else none

/-- Dimension value after `key=` inside an attribute range `[p, stop)`:
digits give pixels, a trailing `%` makes the value a percentage (negative).
Modelled from the spec (`check_image`: width/height ints, neg = %). -/
def parse_img_dim_go (gb : Buf) (stop : Nat) (key : List Nat) : Nat → Nat → Int
  | 0, _ => 0
  | f + 1, p =>
      if p < stop then
        if bytes_match_at gb p (key ++ [61]) then
          let ds := p + key.length + 1
          let n := read_number_aux gb ds 0
          if gap_at gb (ds + count_digits gb ds) = 37 then -(n : Int) else (n : Int)
        else parse_img_dim_go gb stop key f (p + 1)
      else 0

/-- Modelled from the spec: `check_image(pos)` accepts `![alt](path)` with an
optional `{ k=v … }` attribute block; returns
`(alt_start, alt_len, path_start, path_len, width, height, total)` with
negative width/height meaning percent (dawn_md.h `md_check_image`,
implementation not in src). -/
def md_check_image (gb : Buf) (pos : Nat) :
    Option (Nat × Nat × Nat × Nat × Int × Int × Nat) :=
  if gap_at gb pos = 33 then
    match md_check_link gb (pos + 1) with
    | some (alt_s, alt_l, path_s, path_l, link_total) =>
        let after := pos + 1 + link_total
        if gap_at gb after = 123 then
          match find_close_brace_go gb (gb.length - (after + 1)) (after + 1) with
          | some rb =>
              some (alt_s, alt_l, path_s, path_l,
                parse_img_dim_go gb rb [119, 105, 100, 116, 104]
                  (rb - (after + 1)) (after + 1),
                parse_img_dim_go gb rb [104, 101, 105, 103, 104, 116]
                  (rb - (after + 1)) (after + 1),
                rb + 1 - pos)
          | none => some (alt_s, alt_l, path_s, path_l, 0, 0, link_total + 1)
        else some (alt_s, alt_l, path_s, path_l, 0, 0, link_total + 1)
    | none => none
  else none

/-- Modelled from the spec: `check_footnote_ref(pos)` accepts inline `[^id]`
with a nonempty id; returns `(id_start, id_len, total)` (dawn_md.h
`md_check_footnote_ref`, implementation not in src). -/
def md_check_footnote_ref (gb : Buf) (pos : Nat) : Option (Nat × Nat × Nat) :=
  if gap_at gb pos = 91 ∧ gap_at gb (pos + 1) = 94 then
    let idlen := count_fn_id gb (pos + 2)
    if 0 < idlen ∧ gap_at gb (pos + 2 + idlen) = 93 then
      some (pos + 2, idlen, idlen + 3)
    else none
  else none

/-- Modelled from the spec: `check_inline_math(pos)` accepts `$…$` on a single
line, not escaped by a preceding backslash and not the `$$` opener; returns
`(content_start, content_len, total)` (dawn_md.h `md_check_inline_math`,
implementation not in src). -/
def md_check_inline_math (gb : Buf) (pos : Nat) : Option (Nat × Nat × Nat) :=
  if gap_at gb pos = 36 ∧ (pos = 0 ∨ gap_at gb (pos - 1) ≠ 92) ∧
      gap_at gb (pos + 1) ≠ 36 then
    match find_dollar_close_go gb (gb.length - (pos + 1)) (pos + 1) with
    | some q => some (pos + 1, q - (pos + 1), q + 1 - pos)
    | none => none
  else none

-- #endregion

-- #region Smart backspace (dawn.c)

/-- dawn.c `check_smart_delete_symbol`: the autotypography artifacts `(c)`,
`(r)`, `(tm)` directly left of the cursor are deleted atomically. -/
def check_smart_delete_symbol (gb : Buf) (cursor : Nat) : Option (Nat × Nat) :=
  if cursor < 3 then none
  else
    let c1 := gap_at gb (cursor - 1)
    let c2 := gap_at gb (cursor - 2)
    let c3 := gap_at gb (cursor - 3)
    if c1 = 41 ∧ c2 = 99 ∧ c3 = 40 then some (cursor - 3, 3)
    else if c1 = 41 ∧ c2 = 114 ∧ c3 = 40 then some (cursor - 3, 3)
    else if 4 ≤ cursor ∧ c1 = 41 ∧ c2 = 109 ∧ c3 = 116 ∧
        gap_at gb (cursor - 4) = 40 then some (cursor - 4, 4)
    else none

/-- Whether the `count` bytes ending at `i - 1` all equal `delim`
(the inner match loop of dawn.c `scan_for_paired_delim`). -/
def delim_match (gb : Buf) (delim i : Nat) : Nat → Bool
  | 0 => true
  | j + 1 => gap_at gb (i - 1 - j) = delim && delim_match gb delim i j

/-- Descending loop of dawn.c `scan_for_paired_delim`: the loop variable runs
down from `cursor - count` while it is positive and at least `count`. -/
def scan_paired_go (gb : Buf) (delim count cursor : Nat) : Nat → Option (Nat × Nat)
  | 0 => none
  | i + 1 =>
      if count ≤ i + 1 then
        if delim_match gb delim (i + 1) count then
          some (i + 1 - count, cursor - (i + 1 - count))
        else scan_paired_go gb delim count cursor i
      else none

/-- dawn.c `scan_for_paired_delim`: scan backwards for `count` copies of
`delim`; on a hit, the deletion covers from the matched opener to the
cursor. -/
def scan_for_paired_delim (gb : Buf) (cursor delim count : Nat) :
    Option (Nat × Nat) :=
  scan_paired_go gb delim count cursor (cursor - count)

/-- Single-star backward scan of dawn.c `check_smart_delete_delimiter`: find
a `*` that is not part of a `**` pair; the loop variable runs down from
`cursor - 1`. -/
def scan_single_star_go (gb : Buf) (cursor : Nat) : Nat → Option (Nat × Nat)
  | 0 => none
  | i + 1 =>
      if gap_at gb i = 42 then
        if ¬ ((2 ≤ i + 1 ∧ gap_at gb (i - 1) = 42) ∨
            (i + 1 < gb.length ∧ gap_at gb (i + 1) = 42)) then
          some (i, cursor - i)
        else scan_single_star_go gb cursor i
      else scan_single_star_go gb cursor i

/-- Backward `$` scan of dawn.c `check_smart_delete_delimiter`: the nearest
preceding `$`, unbounded and across newlines. -/
def scan_dollar_go (gb : Buf) (cursor : Nat) : Nat → Option (Nat × Nat)
  | 0 => none
  | i + 1 => if gap_at gb i = 36 then some (i, cursor - i)
             else scan_dollar_go gb cursor i

/-- dawn.c `check_smart_delete_delimiter`: paired inline delimiters `**`,
`*`, `~~`, `==` and `$` left of the cursor select a deletion span back to
their matching opener. -/
def check_smart_delete_delimiter (gb : Buf) (cursor : Nat) : Option (Nat × Nat) :=
  if cursor = 0 then none
  else
    let c := gap_at gb (cursor - 1)
    let r1 : Option (Nat × Nat) :=
      if c = 42 then
        if 2 ≤ cursor ∧ gap_at gb (cursor - 2) = 42 then
          scan_for_paired_delim gb cursor 42 2
        else scan_single_star_go gb cursor (cursor - 1)
      else none
    let r2 : Option (Nat × Nat) :=
      if c = 126 ∧ 2 ≤ cursor ∧ gap_at gb (cursor - 2) = 126 then
        scan_for_paired_delim gb cursor 126 2
      else none
    let r3 : Option (Nat × Nat) :=
      if c = 61 ∧ 2 ≤ cursor ∧ gap_at gb (cursor - 2) = 61 then
        scan_for_paired_delim gb cursor 61 2
      else none
    let r4 : Option (Nat × Nat) :=
      if c = 36 then scan_dollar_go gb cursor (cursor - 1) else none
    ((r1.orElse fun _ => r2).orElse fun _ => r3).orElse fun _ => r4

/-- Paren/brace branch of dawn.c `check_smart_delete_structure`: scan back up
to 500 bytes for an image or link whose end lines up with the cursor. -/
def struct_scan_paren_go (gb : Buf) (cursor : Nat) : Nat → Option (Nat × Nat)
  | 0 => none
  | v + 1 =>
      if cursor - (v + 1) < 500 then
        let img : Option (Nat × Nat) :=
          match md_check_image gb v with
          | some (_, _, _, _, _, _, total) =>
              if v + total = cursor then some (v, total) else none
          | none => none
        match img with
        | some r => some r
        | none =>
            match md_check_link gb v with
            | some (_, _, _, _, total) =>
                if v + total = cursor then some (v, total)
                else struct_scan_paren_go gb cursor v
            | none => struct_scan_paren_go gb cursor v
      else none

/-- Bracket branch of dawn.c `check_smart_delete_structure`: scan back up to
100 bytes for a footnote ref whose end lines up with the cursor. -/
def struct_scan_bracket_go (gb : Buf) (cursor : Nat) : Nat → Option (Nat × Nat)
  | 0 => none
  | v + 1 =>
      if cursor - (v + 1) < 100 then
        match md_check_footnote_ref gb v with
        | some (_, _, total) =>
            if v + total = cursor then some (v, total)
            else struct_scan_bracket_go gb cursor v
        | none => struct_scan_bracket_go gb cursor v
      else none

/-- dawn.c `check_smart_delete_structure`: composite constructs (image, link,
footnote ref) ending at the cursor are deleted whole. -/
def check_smart_delete_structure (gb : Buf) (cursor : Nat) : Option (Nat × Nat) :=
  if cursor = 0 then none
  else
    let c := gap_at gb (cursor - 1)
    if c = 41 ∨ c = 125 then struct_scan_paren_go gb cursor cursor
    else if c = 93 then struct_scan_bracket_go gb cursor cursor
    else none

/-- dawn.c `smart_backspace`: try symbol, structure, then delimiter deletion;
on a hit delete the span and move the cursor to its start. -/
def smart_backspace (gb : Buf) (cursor : Nat) : Option (Buf × Nat) :=
  match (check_smart_delete_symbol gb cursor).orElse
      (fun _ => (check_smart_delete_structure gb cursor).orElse
        (fun _ => check_smart_delete_delimiter gb cursor)) with
  | some (ds, dl) => some (gap_delete gb ds dl, ds)
  | none => none

/-- dawn.c `handle_writing`, the Backspace case (keys 127/8), modelled on the
no-selection path: smart backspace, or else delete one UTF-8 codepoint. -/
def handle_backspace (gb : Buf) (cursor : Nat) : Buf × Nat :=
  if 0 < cursor then
    match smart_backspace gb cursor with
    | some r => r
    | none =>
        let prev := gap_utf8_prev gb cursor
        (gap_delete gb prev (cursor - prev), prev)
  else (gb, cursor)

-- #endregion

-- #region C5: smart backspace on inline bold

/-- Counterexample for C5 as stated: in `"before **hi** after"` position 16
is after the `t` of `after`, not after the closing `**` (which ends at 13);
Backspace at 16 deletes the single byte `f`, leaving
`"before **hi** ater"` with cursor 15, not `"before  after"` with cursor 7. -/
theorem C5_counterexample :
    handle_backspace
      [98, 101, 102, 111, 114, 101, 32, 42, 42, 104, 105, 42, 42, 32, 97, 102, 116, 101, 114] 16 =
      ([98, 101, 102, 111, 114, 101, 32, 42, 42, 104, 105, 42, 42, 32, 97, 116, 101, 114], 15) ∧
    handle_backspace
      [98, 101, 102, 111, 114, 101, 32, 42, 42, 104, 105, 42, 42, 32, 97, 102, 116, 101, 114] 16 ≠
      ([98, 101, 102, 111, 114, 101, 32, 32, 97, 102, 116, 101, 114], 7) := by
  decide

/-- C5 (amended): with the cursor immediately after the closing `**`
delimiter — position 13 in `"before **hi** after"` — a single Backspace
deletes the entire `**hi**` span, leaving `"before  after"` with cursor 7. -/
theorem C5_smart_backspace_bold :
    handle_backspace
      [98, 101, 102, 111, 114, 101, 32, 42, 42, 104, 105, 42, 42, 32, 97, 102, 116, 101, 114] 13 =
      ([98, 101, 102, 111, 114, 101, 32, 32, 97, 102, 116, 101, 114], 7) := by
  decide

-- #endregion

-- #region C9: unbounded backward scan for the dollar delimiter

theorem scan_dollar_go_eq (gb : Buf) (cursor : Nat) :
    ∀ n j, j < n → gap_at gb j = 36 →
      (∀ k, j < k → k < n → gap_at gb k ≠ 36) →
      scan_dollar_go gb cursor n = some (j, cursor - j)
  | 0, j, hj, _, _ => absurd hj (Nat.not_lt_zero j)
  | n + 1, j, hj, hdj, hmax => by
      by_cases h : gap_at gb n = 36
      · have hjn : j = n := by
          by_contra hne
          exact hmax n (Nat.lt_of_le_of_ne (Nat.lt_succ_iff.mp hj) hne)
            (Nat.lt_succ_self n) h
        subst hjn
        simp [scan_dollar_go, h]
      · have hjn : j < n := by
          rcases Nat.lt_succ_iff_lt_or_eq.mp hj with h1 | h1
          · exact h1
          · exact absurd (h1 ▸ hdj) h
        simp only [scan_dollar_go, h, if_false]
        exact scan_dollar_go_eq gb cursor n j hjn hdj
          (fun k hk1 hk2 => hmax k hk1 (Nat.lt_succ_of_lt hk2))

theorem check_smart_delete_symbol_none (gb : Buf) (cursor : Nat)
    (h : gap_at gb (cursor - 1) ≠ 41) :
    check_smart_delete_symbol gb cursor = none := by
  simp only [check_smart_delete_symbol]
  split
  · rfl
  · rw [if_neg (fun hc => h hc.1), if_neg (fun hc => h hc.1),
      if_neg (fun hc => h hc.2.1)]

theorem check_smart_delete_structure_none (gb : Buf) (cursor : Nat)
    (h1 : gap_at gb (cursor - 1) ≠ 41) (h2 : gap_at gb (cursor - 1) ≠ 125)
    (h3 : gap_at gb (cursor - 1) ≠ 93) :
    check_smart_delete_structure gb cursor = none := by
  have hor : ¬ (gap_at gb (cursor - 1) = 41 ∨ gap_at gb (cursor - 1) = 125) := by
    rintro (hx | hx)
    · exact h1 hx
    · exact h2 hx
  simp only [check_smart_delete_structure]
  rw [if_neg hor, if_neg h3]
  split <;> rfl

theorem check_smart_delete_delimiter_dollar (gb : Buf) (cursor : Nat)
    (hc : cursor ≠ 0) (hd : gap_at gb (cursor - 1) = 36) :
    check_smart_delete_delimiter gb cursor =
      scan_dollar_go gb cursor (cursor - 1) := by
  simp only [check_smart_delete_delimiter]
  rw [if_neg hc, if_neg (show ¬ gap_at gb (cursor - 1) = 42 by rw [hd]; decide),
    if_neg (fun hx => by rw [hd] at hx; exact absurd hx.1 (by decide)),
    if_neg (fun hx => by rw [hd] at hx; exact absurd hx.1 (by decide)),
    if_pos hd]
  rfl

theorem smart_backspace_dollar (gb : Buf) (cursor j : Nat)
    (hc : cursor ≠ 0) (hd : gap_at gb (cursor - 1) = 36)
    (hscan : scan_dollar_go gb cursor (cursor - 1) = some (j, cursor - j)) :
    smart_backspace gb cursor = some (gap_delete gb j (cursor - j), j) := by
  unfold smart_backspace
  rw [check_smart_delete_symbol_none gb cursor (by rw [hd]; decide),
    check_smart_delete_structure_none gb cursor (by rw [hd]; decide)
      (by rw [hd]; decide) (by rw [hd]; decide),
    check_smart_delete_delimiter_dollar gb cursor hc hd, hscan]
  rfl

/-- C9: the backward scan of `$` smart backspace is bounded neither to the
line nor to a fixed distance.  Whenever the byte left of the cursor is `$`
and `j` is the nearest earlier position holding `$`, one Backspace deletes
every byte of `[j, cursor)` — across newlines, at any distance — and puts
the cursor at `j`. -/
theorem C9_dollar_backspace_unbounded (gb : Buf) (cursor j : Nat)
    (hd : gap_at gb (cursor - 1) = 36)
    (hj : j + 1 < cursor) (hjd : gap_at gb j = 36)
    (hnear : ∀ k, k < cursor → j < k → k + 1 < cursor → gap_at gb k ≠ 36) :
    handle_backspace gb cursor = (gap_delete gb j (cursor - j), j) := by
  have hc : cursor ≠ 0 := by omega
  have hscan : scan_dollar_go gb cursor (cursor - 1) = some (j, cursor - j) :=
    scan_dollar_go_eq gb cursor (cursor - 1) j (by omega) hjd
      (fun k hk1 hk2 => hnear k (by omega) hk1 (by omega))
  unfold handle_backspace
  rw [if_pos (Nat.pos_of_ne_zero hc), smart_backspace_dollar gb cursor j hc hd hscan]

/-- Witness for C9: in the two-line buffer `"$a\nbb$"` with the cursor at the
end, one Backspace deletes the whole buffer — the span from the nearest
(and only) preceding `$` at position 0 crosses the newline. -/
theorem C9_witness :
    handle_backspace [36, 97, 10, 98, 98, 36] 6 =
      (gap_delete [36, 97, 10, 98, 98, 36] 0 6, 0) :=
  C9_dollar_backspace_unbounded [36, 97, 10, 98, 98, 36] 6 0
    (by decide) (by decide) (by decide) (by decide)

-- #endregion

-- #region Block-level recognizers (dawn_md.c, not in src)

/-- Modelled from the spec: `check_hr(pos)` accepts iff the line is three or
more of `-`, `*`, or `_` (a single kind) with optional spaces; returns the
rule byte-length (to the line end).  dawn_md.h `md_check_hr`, implementation
not in src. -/
def md_check_hr (gb : Buf) (pos : Nat) : Option Nat :=
  if ¬ is_at_line_start gb pos then none
  else
    let le := find_line_end gb pos
    let line := gap_copy_to gb pos (le - pos)
    if (line.all (fun b => b == 45 || b == 32) && 3 ≤ line.count 45) ||
        (line.all (fun b => b == 42 || b == 32) && 3 ≤ line.count 42) ||
        (line.all (fun b => b == 95 || b == 32) && 3 ≤ line.count 95) then
      some (le - pos)
    else none

/-- Fuelled count of leading `#` bytes. -/
def count_hashes_go (gb : Buf) : Nat → Nat → Nat
  | 0, _ => 0
  | f + 1, pos =>
      if pos < gb.length ∧ gap_at gb pos = 35 then count_hashes_go gb f (pos + 1) + 1
      else 0

/-- Number of consecutive `#` bytes starting at `pos`. -/
def count_hashes (gb : Buf) (pos : Nat) : Nat :=
  count_hashes_go gb (gb.length - pos) pos

/-- Modelled from the spec: `check_header_content(pos)` accepts iff
line-start, 1..6 `#`, then a space; returns `(level, content_start)` after
the hashes and space (dawn_md.h `md_check_header_content`, implementation not
in src). -/
def md_check_header_content (gb : Buf) (pos : Nat) : Option (Nat × Nat) :=
  if ¬ is_at_line_start gb pos then none
  else
    let h := count_hashes gb pos
    if 1 ≤ h ∧ h ≤ 6 ∧ gap_at gb (pos + h) = 32 then some (h, pos + h + 1)
    else none

/-- Modelled from the spec: `check_header(pos)` returns the header line style
(encoded by its level here, 0 for no match); dawn_md.h `md_check_header`,
implementation not in src. -/
def md_check_header (gb : Buf) (pos : Nat) : Nat :=
  match md_check_header_content gb pos with
  | some (lv, _) => lv
  | none => 0

/-- Modelled from the spec: `check_footnote_def(pos)` accepts line-start
`[^id]:`; returns `(id_start, id_len, content_start, total_len)` with the
content after the colon and an optional space (dawn_md.h
`md_check_footnote_def`, implementation not in src). -/
def md_check_footnote_def (gb : Buf) (pos : Nat) :
    Option (Nat × Nat × Nat × Nat) :=
  if ¬ is_at_line_start gb pos then none
  else if gap_at gb pos = 91 ∧ gap_at gb (pos + 1) = 94 then
    let idlen := count_fn_id gb (pos + 2)
    if 0 < idlen ∧ gap_at gb (pos + 2 + idlen) = 93 ∧
        gap_at gb (pos + 3 + idlen) = 58 then
      some (pos + 2, idlen,
        pos + 4 + idlen + (if gap_at gb (pos + 4 + idlen) = 32 then 1 else 0),
        find_line_end gb pos - pos)
    else none
  else none

/-- Fuelled count of heading-id bytes (anything but `}` and newline). -/
def count_hid_go (gb : Buf) : Nat → Nat → Nat
  | 0, _ => 0
  | f + 1, pos =>
      if pos < gb.length ∧ gap_at gb pos ≠ 125 ∧ gap_at gb pos ≠ 10 then
        count_hid_go gb f (pos + 1) + 1
      else 0

/-- Modelled from the spec: `check_heading_id(pos)` accepts `{#id}` with a
nonempty id; returns `(id_start, id_len, total)` (dawn_md.h
`md_check_heading_id`, implementation not in src). -/
def md_check_heading_id (gb : Buf) (pos : Nat) : Option (Nat × Nat × Nat) :=
  if gap_at gb pos = 123 ∧ gap_at gb (pos + 1) = 35 then
    let idlen := count_hid_go gb (gb.length - (pos + 2)) (pos + 2)
    if 0 < idlen ∧ gap_at gb (pos + 2 + idlen) = 125 then
      some (pos + 2, idlen, idlen + 3)
    else none
  else none

/-- Modelled from the spec: the static emoji shortcode table used by
`check_emoji` (static data in the missing dawn_md.c; a representative subset
is modelled — `:smile:` and `:heart:`). -/
def emoji_table : List (List Nat × List Nat) :=
  [([115, 109, 105, 108, 101], [240, 159, 152, 132]),
   ([104, 101, 97, 114, 116], [226, 157, 164, 239, 184, 143])]

/-- First table entry whose `name:` matches at `pos`. -/
def emoji_find (gb : Buf) (pos : Nat) :
    List (List Nat × List Nat) → Option (List Nat × Nat)
  | [] => none
  | (name, glyph) :: rest =>
      if bytes_match_at gb pos (name ++ [58]) then some (glyph, name.length)
      else emoji_find gb pos rest

/-- Modelled from the spec: `check_emoji(pos)` accepts `:name:` with the name
in the static shortcode table; returns `(glyph, sc_start, sc_len, total)`
(dawn_md.h `md_check_emoji`, implementation not in src). -/
def md_check_emoji (gb : Buf) (pos : Nat) :
    Option (List Nat × Nat × Nat × Nat) :=
  if gap_at gb pos = 58 then
    match emoji_find gb (pos + 1) emoji_table with
    | some (glyph, nlen) => some (glyph, pos + 1, nlen, nlen + 2)
    | none => none
  else none

/-- Modelled from the spec: `check_delim(pos)` recognizes the inline style
delimiters `**` (bold), `*`/`_` (italic), backtick (code), `~~` (strike),
`==` (mark); returns `(style, dlen)` with style bits bold 1, italic 2,
code 4, strike 8, mark 16 (dawn_md.h `md_check_delim`, implementation not in
src). -/
def md_check_delim (gb : Buf) (pos : Nat) : Option (Nat × Nat) :=
  let c := gap_at gb pos
  if c = 42 then
    if gap_at gb (pos + 1) = 42 then some (1, 2) else some (2, 1)
  else if c = 95 then some (2, 1)
  else if c = 96 then some (4, 1)
  else if c = 126 ∧ gap_at gb (pos + 1) = 126 then some (8, 2)
  else if c = 61 ∧ gap_at gb (pos + 1) = 61 then some (16, 2)
  else none

/-- Fuelled scan over line starts for a closing code fence (``` at column
0), jumping line by line. -/
def find_fence_go (gb : Buf) : Nat → Nat → Option Nat
  | 0, _ => none
  | f + 1, q =>
      if q < gb.length then
        if gap_at gb q = 96 ∧ gap_at gb (q + 1) = 96 ∧ gap_at gb (q + 2) = 96 then
          some q
        else find_fence_go gb f (find_line_end gb q + 1)
      else none

/-- Modelled from the spec: `check_code_block(pos)` accepts a fenced
code block — three backticks, optional language to the line end, content to
the first closing fence line at column 0 (or EOF if none); returns
`(lang_start, lang_len, content_start, content_len, total)` (dawn_md.h
`md_check_code_block`, implementation not in src). -/
def md_check_code_block (gb : Buf) (pos : Nat) :
    Option (Nat × Nat × Nat × Nat × Nat) :=
  if gap_at gb pos = 96 ∧ gap_at gb (pos + 1) = 96 ∧ gap_at gb (pos + 2) = 96 then
    let lang_s := pos + 3
    let le := find_line_end gb lang_s
    if le < gb.length then
      let content_s := le + 1
      match find_fence_go gb (gb.length - content_s) content_s with
      | some q =>
          let fe := find_line_end gb (q + 3)
          some (lang_s, le - lang_s, content_s,
            (if content_s < q then q - content_s - 1 else 0),
            (if fe < gb.length then fe + 1 else fe) - pos)
      | none => some (lang_s, le - lang_s, content_s,
          gb.length - content_s, gb.length - pos)
    else some (lang_s, le - lang_s, gb.length, 0, gb.length - pos)
  else none

/-- Fuelled scan over line starts for a closing `$$` on its own line. -/
def find_math_fence_go (gb : Buf) : Nat → Nat → Option Nat
  | 0, _ => none
  | f + 1, q =>
      if q < gb.length then
        if gap_at gb q = 36 ∧ gap_at gb (q + 1) = 36 ∧
            find_line_end gb (q + 2) = q + 2 then some q
        else find_math_fence_go gb f (find_line_end gb q + 1)
      else none

/-- Modelled from the spec: `check_block_math_full(pos)` accepts `$$` on its
own line through the next `$$` line (or EOF if none); returns
`(content_start, content_len, total)` (dawn_md.h `md_check_block_math_full`,
implementation not in src). -/
def md_check_block_math_full (gb : Buf) (pos : Nat) :
    Option (Nat × Nat × Nat) :=
  if gap_at gb pos = 36 ∧ gap_at gb (pos + 1) = 36 ∧
      find_line_end gb (pos + 2) = pos + 2 then
    if pos + 2 < gb.length then
      let content_s := pos + 3
      match find_math_fence_go gb (gb.length - content_s) content_s with
      | some q =>
          let fe := find_line_end gb (q + 2)
          some (content_s, (if content_s < q then q - content_s - 1 else 0),
            (if fe < gb.length then fe + 1 else fe) - pos)
      | none => some (content_s, gb.length - content_s, gb.length - pos)
    else some (gb.length, 0, gb.length - pos)
  else none

-- #endregion

-- #region Table recognizers (dawn_md.c, not in src)

/-- Modelled from the spec: dawn_md.h `MD_TABLE_MAX_COLS` (value not in src;
modelled as 16). -/
def MD_TABLE_MAX_COLS : Nat := 16

/-- Trim leading and trailing spaces of a byte list. -/
def trim_spaces (l : List Nat) : List Nat :=
  ((l.dropWhile (fun b => b == 32)).reverse.dropWhile (fun b => b == 32)).reverse

/-- Alignment of one delimiter-row cell: spaces, optional `:`, dashes,
optional `:`; 0 default, 1 left, 2 right, 3 center; `none` if malformed. -/
def delim_cell_align (cell : List Nat) : Option Nat :=
  let t := trim_spaces cell
  let lcolon := t.head? = some 58
  let rcolon := 1 < t.length ∧ t.getLast? = some 58
  let core := if lcolon then t.drop 1 else t
  let core2 := if rcolon then core.take (core.length - 1) else core
  if core2 ≠ [] ∧ core2.all (fun b => b == 45) then
    some (if lcolon ∧ rcolon then 3 else if rcolon then 2
      else if lcolon then 1 else 0)
  else none

/-- Fuelled scan to the next `|` or the row end. -/
def find_pipe_go (gb : Buf) (rend : Nat) : Nat → Nat → Nat
  | 0, p => p
  | f + 1, p =>
      if p < rend ∧ gap_at gb p ≠ 124 then find_pipe_go gb rend f (p + 1)
      else p

/-- Fuelled splitter for table cells: absolute `(start, len)` of each
`|`-separated cell in `[p, rend)`. -/
def table_cells_go (gb : Buf) (rend : Nat) : Nat → Nat → List (Nat × Nat)
  | 0, _ => []
  | f + 1, p =>
      if p < rend then
        let q := find_pipe_go gb rend (rend - p) p
        (p, q - p) :: (if q < rend then table_cells_go gb rend f (q + 1) else [])
      else []

/-- Modelled from the spec: `parse_table_row(pos, len)` yields the cell
ranges of a row (cells split on `|`, leading pipe skipped, up to
`MD_TABLE_MAX_COLS`); dawn_md.h `md_parse_table_row`, implementation not in
src. -/
def md_parse_table_row (gb : Buf) (row_start row_len : Nat) :
    List (Nat × Nat) :=
  let rend := find_line_end gb row_start
  let rend2 := min rend (row_start + row_len)
  let cstart := if gap_at gb row_start = 124 then row_start + 1 else row_start
  (table_cells_go gb rend2 (rend2 - cstart) cstart).take MD_TABLE_MAX_COLS

/-- Modelled from the spec: `check_table_header(pos)` accepts a row line
starting with `|`; returns `(col_count, len)` where `len` includes the
trailing newline (dawn_md.h `md_check_table_header`, implementation not in
src). -/
def md_check_table_header (gb : Buf) (pos : Nat) : Option (Nat × Nat) :=
  if gap_at gb pos = 124 then
    let le := find_line_end gb pos
    let cols := (table_cells_go gb le (le - (pos + 1)) (pos + 1)).take
      MD_TABLE_MAX_COLS |>.length
    some (cols, (if le < gb.length then le + 1 else le) - pos)
  else none

/-- Modelled from the spec: `check_table_delimiter(pos)` accepts a row whose
cells are all `:?-+:?` patterns; returns `(col_count, aligns, len)`
(dawn_md.h `md_check_table_delimiter`, implementation not in src). -/
def md_check_table_delimiter (gb : Buf) (pos : Nat) :
    Option (Nat × List Nat × Nat) :=
  if gap_at gb pos = 124 then
    let le := find_line_end gb pos
    let cells := (table_cells_go gb le (le - (pos + 1)) (pos + 1)).take
      MD_TABLE_MAX_COLS
    let aligns := cells.map (fun c => delim_cell_align (gap_copy_to gb c.1 c.2))
    if cells ≠ [] ∧ aligns.all (fun a => a.isSome) then
      some (cells.length, aligns.map (fun a => a.getD 0),
        (if le < gb.length then le + 1 else le) - pos)
    else none
  else none

/-- The table recognizer result (dawn_md.h `MdTable`). -/
structure MdTable where
  col_count : Nat
  row_count : Nat
  align : List Nat
  total_len : Nat
deriving DecidableEq

/-- Fuelled scan of data rows following the delimiter row. -/
def table_data_rows_go (gb : Buf) : Nat → Nat → Nat × Nat
  | 0, _ => (0, 0)
  | f + 1, p =>
      match md_check_table_header gb p with
      | some (_, hlen) =>
          ((table_data_rows_go gb f (p + hlen)).1 + 1,
            hlen + (table_data_rows_go gb f (p + hlen)).2)
      | none => (0, 0)

/-- Modelled from the spec: `check_table(pos)` accepts a header row, a
mandatory delimiter row as row 1, then further data rows; returns the
`MdTable` (dawn_md.h `md_check_table`, implementation not in src). -/
def md_check_table (gb : Buf) (pos : Nat) : Option MdTable :=
  match md_check_table_header gb pos with
  | some (cols, hlen) =>
      match md_check_table_delimiter gb (pos + hlen) with
      | some (_, aligns, dlen) =>
          match table_data_rows_go gb (gb.length - (pos + hlen + dlen))
              (pos + hlen + dlen) with
          | (n, consumed) => some ⟨cols, 2 + n, aligns, hlen + dlen + consumed⟩
      | none => none
  | none => none

-- #endregion

-- #region Block model (dawn_block.h, dawn_block.c)

/-- Payload of an inline run (dawn_block.h `InlineRun.data` union together
with `InlineRunType`). -/
inductive RunData where
  | text : RunData
  | link (url_start url_len : Nat) : RunData
  | footnoteRef (id_start id_len : Nat) : RunData
  | inlineMath (content_start content_len : Nat) : RunData
  | emoji (glyph : List Nat) : RunData
deriving DecidableEq

/-- An inline run — a styled span within a paragraph (dawn_block.h
`InlineRun`). -/
structure InlineRun where
  byte_start : Nat
  byte_end : Nat
  style : Nat
  data : RunData
deriving DecidableEq

/-- Payload of a block (dawn_block.h `Block.data` union together with
`BlockType`). -/
inductive BlockData where
  | paragraph (runs : List InlineRun) : BlockData
  | header (level content_start id_start id_len : Nat) : BlockData
  | code (lang_start lang_len content_start content_len : Nat) : BlockData
  | math (content_start content_len : Nat) : BlockData
  | table (col_count row_count : Nat) (align : List Nat) : BlockData
  | image (alt_start alt_len path_start path_len : Nat) (width height : Int) : BlockData
  | hr (rule_len : Nat) : BlockData
  | quote (level content_start : Nat) : BlockData
  | listItem (list_type indent task_state content_start : Nat) : BlockData
  | footnoteDef (id_start id_len content_start : Nat) : BlockData
deriving DecidableEq

/-- A top-level document block (dawn_block.h `Block`).  `stop` is the C
field `end` (a reserved word here). -/
structure Block where
  data : BlockData
  start : Nat
  stop : Nat
  vrow_start : Nat
  vrow_count : Nat
deriving DecidableEq

/-- dawn_block.c `is_block_start`: a line-start position opening one of the
recognized block syntaxes. -/
def is_block_start (gb : Buf) (pos : Nat) : Bool :=
  if ¬ is_at_line_start gb pos then false
  else if gb.length ≤ pos then false
  else
    let c := gap_at gb pos
    decide (
      (c = 33 ∧ pos + 1 < gb.length ∧ gap_at gb (pos + 1) = 91) ∨
      (c = 96 ∧ pos + 2 < gb.length ∧ gap_at gb (pos + 1) = 96 ∧
        gap_at gb (pos + 2) = 96) ∨
      (c = 36 ∧ pos + 1 < gb.length ∧ gap_at gb (pos + 1) = 36) ∨
      (c = 124) ∨
      ((c = 45 ∨ c = 42 ∨ c = 95) ∧ (md_check_hr gb pos).isSome = true) ∨
      (c = 35) ∨
      (c = 91 ∧ pos + 1 < gb.length ∧ gap_at gb (pos + 1) = 94) ∨
      (c = 62) ∨
      ((c = 45 ∨ c = 42 ∨ c = 43) ∧ pos + 1 < gb.length ∧
        gap_at gb (pos + 1) = 32) ∨
      (48 ≤ c ∧ c ≤ 57 ∧
        pos + count_digits gb pos < gb.length ∧
        (gap_at gb (pos + count_digits gb pos) = 46 ∨
          gap_at gb (pos + count_digits gb pos) = 41) ∧
        pos + count_digits gb pos + 1 < gb.length ∧
        gap_at gb (pos + count_digits gb pos + 1) = 32))

-- #endregion

-- #region Block parsers (dawn_block.c try_parse family)

/-- dawn_block.c `try_parse_image`: a block image must be alone on its line
(only spaces up to the newline/EOF); the range includes trailing spaces and
the newline. -/
def try_parse_image (gb : Buf) (pos : Nat) : Option (BlockData × Nat) :=
  if ¬ is_at_line_start gb pos then none
  else
    match md_check_image gb pos with
    | some (alt_s, alt_l, path_s, path_l, w, h, total) =>
        let check := pos + total + count_spaces gb (pos + total)
        if check < gb.length ∧ gap_at gb check ≠ 10 then none
        else
          let e2 := if check < gb.length ∧ gap_at gb check = 10 then check + 1
            else check
          some (BlockData.image alt_s alt_l path_s path_l w h, e2)
    | none => none

/-- dawn_block.c `try_parse_code_block`. -/
def try_parse_code_block (gb : Buf) (pos : Nat) : Option (BlockData × Nat) :=
  if ¬ is_at_line_start gb pos then none
  else
    match md_check_code_block gb pos with
    | some (lang_s, lang_l, content_s, content_l, total) =>
        some (BlockData.code lang_s lang_l content_s content_l, pos + total)
    | none => none

/-- dawn_block.c `try_parse_block_math`. -/
def try_parse_block_math (gb : Buf) (pos : Nat) : Option (BlockData × Nat) :=
  if ¬ is_at_line_start gb pos then none
  else
    match md_check_block_math_full gb pos with
    | some (content_s, content_l, total) =>
        some (BlockData.math content_s content_l, pos + total)
    | none => none

/-- dawn_block.c `try_parse_table`. -/
def try_parse_table (gb : Buf) (pos : Nat) : Option (BlockData × Nat) :=
  if ¬ is_at_line_start gb pos then none
  else
    match md_check_table gb pos with
    | some tbl =>
        some (BlockData.table tbl.col_count tbl.row_count tbl.align,
          pos + tbl.total_len)
    | none => none

/-- dawn_block.c `try_parse_hr`: the rule plus its trailing newline. -/
def try_parse_hr (gb : Buf) (pos : Nat) : Option (BlockData × Nat) :=
  if ¬ is_at_line_start gb pos then none
  else
    match md_check_hr gb pos with
    | some rule_len =>
        let e0 := pos + rule_len
        some (BlockData.hr rule_len,
          if e0 < gb.length ∧ gap_at gb e0 = 10 then e0 + 1 else e0)
    | none => none

/-- dawn_block.c `try_parse_header`: the header line plus newline, with an
optional heading id checked at the content start. -/
def try_parse_header (gb : Buf) (pos : Nat) : Option (BlockData × Nat) :=
  if ¬ is_at_line_start gb pos then none
  else if md_check_header gb pos = 0 then none
  else
    match md_check_header_content gb pos with
    | some (level, content_start) =>
        let e0 := find_line_end gb pos
        let stop := if e0 < gb.length ∧ gap_at gb e0 = 10 then e0 + 1 else e0
        match md_check_heading_id gb content_start with
        | some (id_s, id_l, _) =>
            some (BlockData.header level content_start id_s id_l, stop)
        | none => some (BlockData.header level content_start 0 0, stop)
    | none => none

/-- Fuelled loop finding the end of a footnote definition: line by line until
a blank line, another footnote definition, or EOF (dawn_block.c
`try_parse_footnote_def` loop). -/
def footnote_def_end_go (gb : Buf) : Nat → Nat → Nat
  | 0, endp => endp
  | f + 1, endp =>
      if endp < gb.length then
        let le := find_line_end gb endp
        if gb.length ≤ le then le
        else
          let e2 := le + 1
          if e2 < gb.length then
            if gap_at gb e2 = 10 then e2
            else
              match md_check_footnote_def gb e2 with
              | some _ => e2
              | none => footnote_def_end_go gb f e2
          else e2
      else endp

/-- dawn_block.c `try_parse_footnote_def`. -/
def try_parse_footnote_def (gb : Buf) (pos : Nat) : Option (BlockData × Nat) :=
  if ¬ is_at_line_start gb pos then none
  else
    match md_check_footnote_def gb pos with
    | some (id_s, id_l, content_s, _) =>
        some (BlockData.footnoteDef id_s id_l content_s,
          footnote_def_end_go gb (gb.length - content_s) content_s)
    | none => none

/-- Fuelled loop extending a blockquote while following lines start with `>`
(dawn_block.c `try_parse_blockquote` loop; entered at a line end). -/
def blockquote_end_go (gb : Buf) : Nat → Nat → Nat
  | 0, endp => endp
  | f + 1, endp =>
      if endp < gb.length then
        let e1 := if gap_at gb endp = 10 then endp + 1 else endp
        if e1 < gb.length ∧ gap_at gb e1 = 62 then
          blockquote_end_go gb f (find_line_end gb e1)
        else e1
      else endp

/-- dawn_block.c `try_parse_blockquote`. -/
def try_parse_blockquote (gb : Buf) (pos : Nat) : Option (BlockData × Nat) :=
  if ¬ is_at_line_start gb pos then none
  else
    match md_check_blockquote gb pos with
    | some (level, content_s) =>
        some (BlockData.quote level content_s,
          blockquote_end_go gb (gb.length - pos) (find_line_end gb pos))
    | none => none

/-- dawn_block.c `try_parse_list_item`: tasks first, then plain list items;
one source line per item, newline included. -/
def try_parse_list_item (gb : Buf) (pos : Nat) : Option (BlockData × Nat) :=
  if ¬ is_at_line_start gb pos then none
  else
    let le := find_line_end gb pos
    let stop := if le < gb.length ∧ gap_at gb le = 10 then le + 1 else le
    match md_check_task gb pos with
    | some (st, content_s, indent) =>
        some (BlockData.listItem 1 indent st content_s, stop)
    | none =>
        match md_check_list gb pos with
        | some (lt, content_s, indent) =>
            some (BlockData.listItem lt indent 0 content_s, stop)
        | none => none

/-- Fuelled loop of dawn_block.c `parse_paragraph`: extend until a blank line
(first newline included), a following block start, or EOF. -/
def parse_paragraph_end_go (gb : Buf) : Nat → Nat → Nat
  | 0, endp => endp
  | f + 1, endp =>
      if endp < gb.length then
        if gap_at gb endp = 10 ∧ endp + 1 < gb.length ∧
            gap_at gb (endp + 1) = 10 then endp + 1
        else if gap_at gb endp = 10 ∧ endp + 1 < gb.length ∧
            is_block_start gb (endp + 1) then endp
        else parse_paragraph_end_go gb f (endp + 1)
      else endp

/-- End of the paragraph block starting at `pos`: the loop above plus the
trailing-newline inclusion of dawn_block.c `parse_paragraph`. -/
def parse_paragraph_end (gb : Buf) (pos : Nat) : Nat :=
  let e := parse_paragraph_end_go gb (gb.length - pos) pos
  if e < gb.length ∧ gap_at gb e = 10 then e + 1 else e

-- #endregion

-- #region Inline run pre-pass (dawn_block.c block_parse_inline_runs)

/-- Combine a style bit into the active style set (C `active_style |= delim`). -/
def md_style_add (s d : Nat) : Nat := s ||| d

/-- Clear a style bit from the active style set (C `active_style &= ~delim`;
subtracting the intersection equals bitwise and-not). -/
def md_style_remove (s d : Nat) : Nat := s - (s &&& d)

/-- State of the paragraph inline scanner: position, start and style of the
open text run, style stack (topmost first), active combined style, and the
runs emitted so far. -/
structure ScanState where
  pos : Nat
  run_start : Nat
  stack : List (Nat × Nat)
  active_style : Nat
  run_style : Nat
  runs : List InlineRun
deriving DecidableEq

/-- Emit the open text run if it is nonempty (C `if (pos > run_start)` blocks
of `block_parse_inline_runs`). -/
def emit_text_run (st : ScanState) : List InlineRun :=
  if st.run_start < st.pos then
    st.runs ++ [⟨st.run_start, st.pos, st.run_style, RunData.text⟩]
  else st.runs

/-- Index of the topmost stack entry matching the delimiter (the C downward
`for` over `style_stack`; the stack is topmost-first here). -/
def stack_pop_find (stack : List (Nat × Nat)) (d l : Nat) : Option Nat :=
  stack.findIdx? (fun e => e.1 == d && e.2 == l)

/-- Main loop of dawn_block.c `block_parse_inline_runs`.  Each iteration,
in this order: newline ends the open text run; a link, footnote ref, inline
math or emoji emits a typed run over its exact range; a style delimiter pops
the innermost matching stack entry or pushes itself when depth permits; any
other byte extends the open text run.  The C loop does not advance when a
delimiter neither closes nor can be pushed (depth 8); that state is
unreachable (at most five distinct delimiter pairs exist) and the model
returns the state unchanged there. -/
def inline_runs_go (gb : Buf) (endp : Nat) : Nat → ScanState → ScanState
  | 0, st => st
  | f + 1, st =>
      if st.pos < endp then
        if gap_at gb st.pos = 10 then
          inline_runs_go gb endp f
            ⟨st.pos + 1, st.pos + 1, st.stack, st.active_style,
              st.active_style, emit_text_run st⟩
        else
          match md_check_link gb st.pos with
          | some (_, _, url_s, url_l, total) =>
              inline_runs_go gb endp f
                ⟨st.pos + total, st.pos + total, st.stack, st.active_style,
                  st.active_style,
                  emit_text_run st ++
                    [⟨st.pos, st.pos + total, st.active_style,
                      RunData.link url_s url_l⟩]⟩
          | none =>
          match md_check_footnote_ref gb st.pos with
          | some (id_s, id_l, total) =>
              inline_runs_go gb endp f
                ⟨st.pos + total, st.pos + total, st.stack, st.active_style,
                  st.active_style,
                  emit_text_run st ++
                    [⟨st.pos, st.pos + total, st.active_style,
                      RunData.footnoteRef id_s id_l⟩]⟩
          | none =>
          match md_check_inline_math gb st.pos with
          | some (content_s, content_l, total) =>
              inline_runs_go gb endp f
                ⟨st.pos + total, st.pos + total, st.stack, st.active_style,
                  st.active_style,
                  emit_text_run st ++
                    [⟨st.pos, st.pos + total, st.active_style,
                      RunData.inlineMath content_s content_l⟩]⟩
          | none =>
          match md_check_emoji gb st.pos with
          | some (glyph, _, _, total) =>
              inline_runs_go gb endp f
                ⟨st.pos + total, st.pos + total, st.stack, st.active_style,
                  st.active_style,
                  emit_text_run st ++
                    [⟨st.pos, st.pos + total, st.active_style,
                      RunData.emoji glyph⟩]⟩
          | none =>
          match md_check_delim gb st.pos with
          | some (d, dl) =>
              if 0 < dl then
                match stack_pop_find st.stack d dl with
                | some k =>
                    inline_runs_go gb endp f
                      ⟨st.pos + dl, st.pos + dl, st.stack.drop (k + 1),
                        md_style_remove st.active_style d,
                        md_style_remove st.active_style d, emit_text_run st⟩
                | none =>
                    if st.stack.length < 8 then
                      inline_runs_go gb endp f
                        ⟨st.pos + dl, st.pos + dl, (d, dl) :: st.stack,
                          md_style_add st.active_style d,
                          md_style_add st.active_style d, emit_text_run st⟩
                    else st
              else inline_runs_go gb endp f { st with pos := st.pos + 1 }
          | none => inline_runs_go gb endp f { st with pos := st.pos + 1 }
      else st

/-- dawn_block.c `block_parse_inline_runs` for the paragraph byte range
`[start, endp)`: run the scanner, then emit the final open text run. -/
def block_parse_inline_runs (gb : Buf) (start endp : Nat) : List InlineRun :=
  emit_text_run (inline_runs_go gb endp (endp - start) ⟨start, start, [], 0, 0, []⟩)

-- #endregion

-- #region Virtual-row sizing (dawn_block.c calculate_block_vrows)

/-- External collaborators consumed by the block model (spec §6): image
resolution and measurement, TeX rasterization, and grapheme stepping (the
word-wrap implementation dawn_wrap.c is not in src).  `gw_progress` records
the spec guarantee that grapheme stepping always advances one position or
more. -/
structure Externals where
  image_size : Buf → Option (Nat × Nat)
  image_calc_rows : Nat → Nat → Nat → Nat → Nat
  tex_height : Buf → Option Nat
  grapheme_width : Buf → Nat → Nat × Nat
  gw_progress : ∀ gb pos, pos < (grapheme_width gb pos).2

/-- Fuelled sum of grapheme widths over `[p, endp)` (header branch of
dawn_block.c `calculate_block_vrows`). -/
def header_width_go (ext : Externals) (gb : Buf) (endp : Nat) : Nat → Nat → Nat
  | 0, _ => 0
  | f + 1, p =>
      if p < endp then
        (ext.grapheme_width gb p).1 +
          header_width_go ext gb endp f (ext.grapheme_width gb p).2
      else 0

/-- Fuelled wrapped-line count of one table cell, skipping style delimiters
(table branch of dawn_block.c `calculate_block_vrows`). -/
def table_cell_lines_go (ext : Externals) (gb : Buf) (col_width cell_end : Nat) :
    Nat → Nat → Nat → Nat → Nat
  | 0, _, _, lines => lines
  | f + 1, p, lw, lines =>
      if p < cell_end then
        match md_check_delim gb p with
        | some (_, dl) =>
            if 0 < dl then table_cell_lines_go ext gb col_width cell_end f (p + dl) lw lines
            else
              let gwn := ext.grapheme_width gb p
              if col_width < lw + gwn.1 ∧ 0 < lw then
                table_cell_lines_go ext gb col_width cell_end f gwn.2 gwn.1 (lines + 1)
              else table_cell_lines_go ext gb col_width cell_end f gwn.2 (lw + gwn.1) lines
        | none =>
            let gwn := ext.grapheme_width gb p
            if col_width < lw + gwn.1 ∧ 0 < lw then
              table_cell_lines_go ext gb col_width cell_end f gwn.2 gwn.1 (lines + 1)
            else table_cell_lines_go ext gb col_width cell_end f gwn.2 (lw + gwn.1) lines
      else lines

/-- Fuelled row scan of the table branch of `calculate_block_vrows`: collect
`(row_start, row_len)` pairs, trying the delimiter recognizer for row 1,
capped at 64 rows. -/
def table_rows_go (gb : Buf) (block_end : Nat) : Nat → Nat → Nat → List (Nat × Nat)
  | 0, _, _ => []
  | f + 1, scan_pos, row_count =>
      if scan_pos < block_end ∧ row_count < 64 then
        if row_count = 1 then
          match md_check_table_delimiter gb scan_pos with
          | some (_, _, dlen) =>
              (scan_pos, dlen) ::
                table_rows_go gb block_end f (scan_pos + dlen) (row_count + 1)
          | none =>
              match md_check_table_header gb scan_pos with
              | some (_, hlen) =>
                  (scan_pos, hlen) ::
                    table_rows_go gb block_end f (scan_pos + hlen) (row_count + 1)
              | none => []
        else
          match md_check_table_header gb scan_pos with
          | some (_, hlen) =>
              (scan_pos, hlen) ::
                table_rows_go gb block_end f (scan_pos + hlen) (row_count + 1)
          | none => []
      else []

/-- Table branch of dawn_block.c `calculate_block_vrows`: top border, per-row
wrapped heights with a delimiter row of height 1, inter-row dividers, bottom
border. -/
def table_block_vrows (ext : Externals) (gb : Buf) (wrap_width cols bstart bstop : Nat) : Nat :=
  let base : Int := ((wrap_width : Int) - ((cols : Int) + 1)) / (cols : Int)
  let cw : Nat := if 0 < base then base.toNat else 1
  let rows := table_rows_go gb bstop (bstop - bstart) bstart 0
  let n := rows.length
  let rowHeight : Nat × Nat → Nat := fun rc =>
    let cells := (md_parse_table_row gb rc.1 rc.2).take cols
    cells.foldl (fun m c => max m (table_cell_lines_go ext gb cw (c.1 + c.2) c.2 c.1 0 1)) 1
  1 + (rows.enum.foldl (fun acc rie =>
        acc + (if rie.1 = 1 then 1
          else rowHeight rie.2 + (if rie.1 < n - 1 ∧ rie.1 ≠ 0 then 1 else 0))) 0)
    + 1

/-- Fuelled scan to the first newline in `[p, limit)` (line scanning local to
a block in the default branch of `calculate_block_vrows`). -/
def find_line_end_in_go (gb : Buf) (limit : Nat) : Nat → Nat → Nat
  | 0, p => p
  | f + 1, p =>
      if p < limit ∧ gap_at gb p ≠ 10 then find_line_end_in_go gb limit f (p + 1)
      else p

/-- Fuelled wrapped-row count of one logical line (default branch of
`calculate_block_vrows`): accumulate grapheme widths, starting a new row when
the width would overflow. -/
def line_wrap_count_go (ext : Externals) (gb : Buf) (wrap_width line_end : Nat) :
    Nat → Nat → Nat → Nat → Nat
  | 0, _, _, acc => acc
  | f + 1, p, lw, acc =>
      if p < line_end then
        let gwn := ext.grapheme_width gb p
        if wrap_width < lw + gwn.1 ∧ 0 < lw then
          line_wrap_count_go ext gb wrap_width line_end f gwn.2 gwn.1 (acc + 1)
        else line_wrap_count_go ext gb wrap_width line_end f gwn.2 (lw + gwn.1) acc
      else acc

/-- Fuelled line iteration for the default branch of
`calculate_block_vrows`: sum of wrapped line counts over the logical lines
of `[pos, stop)`. -/
def default_vrows_go (ext : Externals) (gb : Buf) (wrap_width stop : Nat) : Nat → Nat → Nat
  | 0, _ => 0
  | f + 1, pos =>
      if pos < stop then
        let le := find_line_end_in_go gb stop (stop - pos) pos
        line_wrap_count_go ext gb wrap_width le (le - pos) pos 0 1 +
          default_vrows_go ext gb wrap_width stop f
            (if le < stop ∧ gap_at gb le = 10 then le + 1 else le)
      else 0

/-- dawn_block.c `calculate_block_vrows`: virtual row count of one block from
its own geometry.  External image/TeX measurements come from `ext`
(spec §6); zero wrap width and text height fall back to 80 and 24 as in the
C code. -/
def calculate_block_vrows (ext : Externals) (gb : Buf) (wrap_width0 text_height0 : Nat)
    (data : BlockData) (start stop : Nat) : Nat :=
  let wrap_width := if wrap_width0 = 0 then 80 else wrap_width0
  let text_height := if text_height0 = 0 then 24 else text_height0
  match data with
  | BlockData.hr _ => 1
  | BlockData.image _ _ path_s path_l w h =>
      let raw_path := (gap_copy_to gb path_s path_l).take 511
      match ext.image_size raw_path with
      | none => 1
      | some (pw, ph) =>
          let img_cols0 : Int :=
            if w < 0 then (wrap_width : Int) * (-w) / 100
            else if 0 < w then w else 0
          let img_cols1 : Int :=
            if (wrap_width : Int) < img_cols0 then (wrap_width : Int) else img_cols0
          let img_cols : Int := if img_cols1 ≤ 0 then (wrap_width : Int) / 2 else img_cols1
          let rows_spec : Int :=
            if h < 0 then (text_height : Int) * (-h) / 100
            else if 0 < h then h else 0
          let rows := ext.image_calc_rows pw ph img_cols.toNat rows_spec.toNat
          if 0 < rows then rows else 1
  | BlockData.header level content_start _ _ =>
      let scale := if level = 1 then 2 else 1
      let e := if 0 < stop ∧ gap_at gb (stop - 1) = 10 then stop - 1 else stop
      let total_width := header_width_go ext gb e (e - content_start) content_start
      let available := max (wrap_width / scale) 1
      max ((total_width + available - 1) / available) 1 * scale
  | BlockData.code _ _ content_s content_l =>
      1 + (gap_copy_to gb content_s content_l).count 10
  | BlockData.math content_s content_l =>
      match ext.tex_height (gap_copy_to gb content_s content_l) with
      | some hgt => if 0 < hgt then hgt else 1
      | none => 1
  | BlockData.table cols _ _ => table_block_vrows ext gb wrap_width cols start stop
  | _ =>
      let v := default_vrows_go ext gb wrap_width stop (stop - start) start
      if 0 < v then v else 1

-- #endregion

-- #region Block cache parse and render guard (dawn_block.c, dawn.c)

/-- The block cache (dawn_block.h `BlockCache`; the `count`/`capacity` pair
is the list length here). -/
structure BlockCacheM where
  blocks : List Block
  text_len : Nat
  total_vrows : Nat
  valid : Bool
  wrap_width : Nat
  text_height : Nat
deriving DecidableEq

/-- dawn_block.c `block_cache_init`. -/
def block_cache_init : BlockCacheM :=
  { blocks := [], text_len := 0, total_vrows := 0, valid := false,
    wrap_width := 0, text_height := 0 }

/-- dawn_block.c `block_cache_invalidate`: release the blocks and clear the
validity flag. -/
def block_cache_invalidate (bc : BlockCacheM) : BlockCacheM :=
  { bc with blocks := [], valid := false }

/-- One step of the parse loop of dawn_block.c `block_cache_parse`: try each
block parser in priority order, defaulting to a paragraph with eagerly
parsed inline runs. -/
def parse_block_at (gb : Buf) (pos : Nat) : BlockData × Nat :=
  match try_parse_image gb pos with
  | some r => r
  | none =>
  match try_parse_code_block gb pos with
  | some r => r
  | none =>
  match try_parse_block_math gb pos with
  | some r => r
  | none =>
  match try_parse_table gb pos with
  | some r => r
  | none =>
  match try_parse_hr gb pos with
  | some r => r
  | none =>
  match try_parse_header gb pos with
  | some r => r
  | none =>
  match try_parse_footnote_def gb pos with
  | some r => r
  | none =>
  match try_parse_blockquote gb pos with
  | some r => r
  | none =>
  match try_parse_list_item gb pos with
  | some r => r
  | none =>
      let stop := parse_paragraph_end gb pos
      (BlockData.paragraph (block_parse_inline_runs gb pos stop), stop)

/-- Fuelled parse loop of dawn_block.c `block_cache_parse`: emit blocks from
`pos` to the end of the buffer, accumulating virtual rows. -/
def block_cache_parse_go (ext : Externals) (gb : Buf) (wrap_width text_height : Nat) :
    Nat → Nat → Nat → List Block
  | 0, _, _ => []
  | f + 1, pos, vrow =>
      if pos < gb.length then
        let ds := parse_block_at gb pos
        let vc := calculate_block_vrows ext gb wrap_width text_height ds.1 pos ds.2
        ⟨ds.1, pos, ds.2, vrow, vc⟩ ::
          block_cache_parse_go ext gb wrap_width text_height f ds.2 (vrow + vc)
      else []

/-- dawn_block.c `block_cache_parse`: invalidate, then reparse the whole
document from byte 0 and mark the cache valid.  Allocation is modelled as
succeeding (on failure the C code stops early, spec §7). -/
def block_cache_parse (ext : Externals) (bc : BlockCacheM) (gb : Buf)
    (wrap_width text_height : Nat) : BlockCacheM :=
  let bc1 := block_cache_invalidate bc
  let blocks := block_cache_parse_go ext gb wrap_width text_height gb.length 0 0
  { bc1 with
    blocks := blocks
    text_len := gb.length
    wrap_width := wrap_width
    text_height := text_height
    total_vrows := (blocks.map (fun b => b.vrow_count)).sum
    valid := true }

/-- dawn.c `render_writing`, line 3655: the cache used by a render pass is
reparsed iff it is invalid or its recorded `(text_len, wrap_width,
text_height)` differ from the current ones; otherwise the cached blocks are
used as they are. -/
def render_ensure_cache (ext : Externals) (bc : BlockCacheM) (gb : Buf)
    (wrap_width text_height : Nat) : BlockCacheM :=
  if ¬ bc.valid ∨ bc.text_len ≠ gb.length ∨ bc.wrap_width ≠ wrap_width ∨
      bc.text_height ≠ text_height then
    block_cache_parse ext bc gb wrap_width text_height
  else bc

-- #endregion

-- #region C2: cache invalidation vs the length-difference guard

/-- A concrete set of external collaborators for witnesses: images and TeX
unresolved, every byte one cell wide. -/
def ext0 : Externals where
  image_size := fun _ => none
  image_calc_rows := fun _ _ _ _ => 1
  tex_height := fun _ => none
  grapheme_width := fun _ pos => (1, pos + 1)
  gw_progress := fun _ pos => Nat.lt_succ_self pos

/-- C2 (amended): the render pass reparses only when the cache is invalid or
its recorded `(text_len, wrap_width, text_height)` differ from the current
ones; no mutation invalidates the cache directly.  Hence after any mutation
that leaves the document length unchanged (with unchanged wrap dimensions),
the next render reuses the cached parse of the old bytes unchanged. -/
theorem C2_equal_length_mutation_reuses_cache (ext : Externals)
    (bc : BlockCacheM) (gb gb2 : Buf) (w h : Nat)
    (hlen : gb2.length = gb.length) :
    render_ensure_cache ext (block_cache_parse ext bc gb w h) gb2 w h =
      block_cache_parse ext bc gb w h := by
  have h1 : (block_cache_parse ext bc gb w h).valid = true := rfl
  have h2 : (block_cache_parse ext bc gb w h).text_len = gb.length := rfl
  have h3 : (block_cache_parse ext bc gb w h).wrap_width = w := rfl
  have h4 : (block_cache_parse ext bc gb w h).text_height = h := rfl
  unfold render_ensure_cache
  split
  · next hx =>
      exfalso
      rcases hx with hx | hx | hx | hx
      · exact hx h1
      · exact hx (h2.trans hlen.symm)
      · exact hx h3
      · exact hx h4
  · rfl

/-- Witness for C2 (amended): the document `"- a\n"` is parsed, then mutated
in place to `"abcd"` (same length); the next render reuses the old cache. -/
theorem C2_witness :
    render_ensure_cache ext0
      (block_cache_parse ext0 block_cache_init [45, 32, 97, 10] 80 24)
      [97, 98, 99, 100] 80 24 =
    block_cache_parse ext0 block_cache_init [45, 32, 97, 10] 80 24 :=
  C2_equal_length_mutation_reuses_cache ext0 block_cache_init
    [45, 32, 97, 10] [97, 98, 99, 100] 80 24 (by decide)

/-- Counterexample for C2 as stated: replacing the document `"- a\n"` by the
equal-length `"abcd"` leaves the guard of dawn.c:3655 false, so the block
model used by the next render is still the stale list-item parse of the old
bytes — not a fresh parse of the current document, which would be a single
paragraph. -/
theorem C2_counterexample :
    (render_ensure_cache ext0
      (block_cache_parse ext0 block_cache_init [45, 32, 97, 10] 80 24)
      [97, 98, 99, 100] 80 24).blocks ≠
    (block_cache_parse ext0 block_cache_init [97, 98, 99, 100] 80 24).blocks := by
  decide

-- #endregion

-- #region Block queries (dawn_block.c block_at_vrow / block_index_at_pos)

/-- Placeholder block used for the C pointer arithmetic `&bc->blocks[i]`
(never read out of range along the proved paths). -/
def dummy_block : Block := ⟨BlockData.hr 0, 0, 0, 0, 0⟩

/-- Binary search loop of dawn_block.c `block_at_vrow`: either the index of a
block whose vrow range contains `vrow`, or the final `lo`. -/
def bsearch_vrow_go (blocks : List Block) (vrow : Int) : Nat → Nat → Nat → Nat ⊕ Nat
  | 0, lo, _ => Sum.inr lo
  | f + 1, lo, hi =>
      if lo < hi then
        let mid := lo + (hi - lo) / 2
        let b := blocks.getD mid dummy_block
        if vrow < (b.vrow_start : Int) then bsearch_vrow_go blocks vrow f lo mid
        else if ((b.vrow_start : Int) + (b.vrow_count : Int)) ≤ vrow then
          bsearch_vrow_go blocks vrow f (mid + 1) hi
        else Sum.inl mid
      else Sum.inr lo

/-- dawn_block.c `block_at_vrow`: binary search by vrow range; a miss
resolves to the block before the final `lo`, or the first block. -/
def block_at_vrow (bc : BlockCacheM) (vrow : Int) : Option Block :=
  if ¬ bc.valid ∨ bc.blocks.length = 0 then none
  else
    match bsearch_vrow_go bc.blocks vrow bc.blocks.length 0 bc.blocks.length with
    | Sum.inl i => some (bc.blocks.getD i dummy_block)
    | Sum.inr lo =>
        if 0 < lo ∧ lo ≤ bc.blocks.length then
          some (bc.blocks.getD (lo - 1) dummy_block)
        else if 0 < bc.blocks.length then some (bc.blocks.getD 0 dummy_block)
        else none

/-- Binary search loop of dawn_block.c `block_index_at_pos`. -/
def bsearch_pos_go (blocks : List Block) (byte_pos : Nat) : Nat → Nat → Nat → Nat ⊕ Nat
  | 0, lo, _ => Sum.inr lo
  | f + 1, lo, hi =>
      if lo < hi then
        let mid := lo + (hi - lo) / 2
        let b := blocks.getD mid dummy_block
        if byte_pos < b.start then bsearch_pos_go blocks byte_pos f lo mid
        else if b.stop ≤ byte_pos then bsearch_pos_go blocks byte_pos f (mid + 1) hi
        else Sum.inl mid
      else Sum.inr lo

/-- dawn_block.c `block_index_at_pos`: binary search by byte range; a miss at
or past the end of the last block resolves to it, otherwise to the final
`lo` clamped into range.  The C `-1` for an invalid or empty cache is `none`
here. -/
def block_index_at_pos (bc : BlockCacheM) (byte_pos : Nat) : Option Nat :=
  if ¬ bc.valid ∨ bc.blocks.length = 0 then none
  else
    match bsearch_pos_go bc.blocks byte_pos bc.blocks.length 0 bc.blocks.length with
    | Sum.inl i => some i
    | Sum.inr lo =>
        if 0 < lo ∧ (bc.blocks.getD (lo - 1) dummy_block).stop ≤ byte_pos then
          some (lo - 1)
        else if lo < bc.blocks.length then some lo
        else some (bc.blocks.length - 1)

theorem bsearch_pos_go_range (blocks : List Block) (byte_pos : Nat) :
    ∀ (f lo hi : Nat), lo ≤ hi →
      (∀ i, bsearch_pos_go blocks byte_pos f lo hi = Sum.inl i → lo ≤ i ∧ i < hi) ∧
      (∀ l, bsearch_pos_go blocks byte_pos f lo hi = Sum.inr l → lo ≤ l ∧ l ≤ hi)
  | 0, lo, hi, hle =>
      ⟨fun i h => by simp [bsearch_pos_go] at h,
       fun l h => by
        simp only [bsearch_pos_go, Sum.inr.injEq] at h
        exact ⟨h ▸ Nat.le_refl lo, h ▸ hle⟩⟩
  | f + 1, lo, hi, hle => by
      constructor <;> intro x h
      · by_cases hlh : lo < hi
        · simp only [bsearch_pos_go, if_pos hlh] at h
          have hmid1 : lo ≤ lo + (hi - lo) / 2 := Nat.le_add_right _ _
          have hmid2 : lo + (hi - lo) / 2 < hi := by omega
          split at h
          · have := (bsearch_pos_go_range blocks byte_pos f lo
              (lo + (hi - lo) / 2) (by omega)).1 x h
            omega
          · split at h
            · have := (bsearch_pos_go_range blocks byte_pos f
                (lo + (hi - lo) / 2 + 1) hi (by omega)).1 x h
              omega
            · cases h
              omega
        · simp [bsearch_pos_go, if_neg hlh] at h
      · by_cases hlh : lo < hi
        · simp only [bsearch_pos_go, if_pos hlh] at h
          have hmid2 : lo + (hi - lo) / 2 < hi := by omega
          split at h
          · have := (bsearch_pos_go_range blocks byte_pos f lo
              (lo + (hi - lo) / 2) (by omega)).2 x h
            omega
          · split at h
            · have := (bsearch_pos_go_range blocks byte_pos f
                (lo + (hi - lo) / 2 + 1) hi (by omega)).2 x h
              omega
            · cases h
        · simp only [bsearch_pos_go, if_neg hlh, Sum.inr.injEq] at h
          omega

theorem bsearch_vrow_go_range (blocks : List Block) (vrow : Int) :
    ∀ (f lo hi : Nat), lo ≤ hi →
      (∀ i, bsearch_vrow_go blocks vrow f lo hi = Sum.inl i → lo ≤ i ∧ i < hi) ∧
      (∀ l, bsearch_vrow_go blocks vrow f lo hi = Sum.inr l → lo ≤ l ∧ l ≤ hi)
  | 0, lo, hi, hle =>
      ⟨fun i h => by simp [bsearch_vrow_go] at h,
       fun l h => by
        simp only [bsearch_vrow_go, Sum.inr.injEq] at h
        exact ⟨h ▸ Nat.le_refl lo, h ▸ hle⟩⟩
  | f + 1, lo, hi, hle => by
      constructor <;> intro x h
      · by_cases hlh : lo < hi
        · simp only [bsearch_vrow_go, if_pos hlh] at h
          have hmid2 : lo + (hi - lo) / 2 < hi := by omega
          split at h
          · have := (bsearch_vrow_go_range blocks vrow f lo
              (lo + (hi - lo) / 2) (by omega)).1 x h
            omega
          · split at h
            · have := (bsearch_vrow_go_range blocks vrow f
                (lo + (hi - lo) / 2 + 1) hi (by omega)).1 x h
              omega
            · cases h
              omega
        · simp [bsearch_vrow_go, if_neg hlh] at h
      · by_cases hlh : lo < hi
        · simp only [bsearch_vrow_go, if_pos hlh] at h
          have hmid2 : lo + (hi - lo) / 2 < hi := by omega
          split at h
          · have := (bsearch_vrow_go_range blocks vrow f lo
              (lo + (hi - lo) / 2) (by omega)).2 x h
            omega
          · split at h
            · have := (bsearch_vrow_go_range blocks vrow f
                (lo + (hi - lo) / 2 + 1) hi (by omega)).2 x h
              omega
            · cases h
        · simp only [bsearch_vrow_go, if_neg hlh, Sum.inr.injEq] at h
          omega

theorem block_getD_mem (l : List Block) (i : Nat) (h : i < l.length) (d : Block) :
    l.getD i d ∈ l := by
  rw [List.getD_eq_getElem l d h]
  exact List.getElem_mem h

theorem bsearch_pos_go_all_past (blocks : List Block) (byte_pos : Nat)
    (hall : ∀ b ∈ blocks, b.start ≤ b.stop ∧ b.stop ≤ byte_pos) :
    ∀ (f lo hi : Nat), hi ≤ blocks.length → lo ≤ hi → hi - lo ≤ f →
      bsearch_pos_go blocks byte_pos f lo hi = Sum.inr hi
  | 0, lo, hi, _, hle, hf => by
      have : lo = hi := by omega
      simp [bsearch_pos_go, this]
  | f + 1, lo, hi, hhi, hle, hf => by
      by_cases hlh : lo < hi
      · have hmid2 : lo + (hi - lo) / 2 < hi := by omega
        have hb := hall (blocks.getD (lo + (hi - lo) / 2) dummy_block)
          (block_getD_mem blocks _ (by omega) dummy_block)
        simp only [bsearch_pos_go, if_pos hlh]
        rw [if_neg (by omega), if_pos (by omega)]
        exact bsearch_pos_go_all_past blocks byte_pos hall f
          (lo + (hi - lo) / 2 + 1) hi hhi (by omega) (by omega)
      · have : lo = hi := by omega
        simp [bsearch_pos_go, if_neg hlh, this]

/-- C10: on a valid nonempty cache the block-model queries are total:
`block_at_vrow` returns a block for every integer vrow (vrows outside all
ranges resolve to a neighbour); `block_index_at_pos` returns an index in
`[0, count)` for every byte position; and a position at or past the end of
every block resolves to the last block. -/
theorem C10_block_queries_total (bc : BlockCacheM)
    (hv : bc.valid = true) (hne : bc.blocks ≠ []) :
    (∀ vrow : Int, ∃ b, block_at_vrow bc vrow = some b) ∧
    (∀ byte_pos : Nat, ∃ i, block_index_at_pos bc byte_pos = some i ∧
      i < bc.blocks.length) ∧
    (∀ byte_pos : Nat,
      (∀ b ∈ bc.blocks, b.start ≤ b.stop ∧ b.stop ≤ byte_pos) →
      block_index_at_pos bc byte_pos = some (bc.blocks.length - 1)) := by
  have hlen : 0 < bc.blocks.length := List.length_pos.mpr hne
  have hguard : ¬ (¬ bc.valid = true ∨ bc.blocks.length = 0) := by
    rintro (hx | hx)
    · exact hx hv
    · omega
  refine ⟨?_, ?_, ?_⟩
  · intro vrow
    unfold block_at_vrow
    rw [if_neg hguard]
    rcases hres : bsearch_vrow_go bc.blocks vrow bc.blocks.length 0 bc.blocks.length with i | lo
    · exact ⟨_, rfl⟩
    · have := (bsearch_vrow_go_range bc.blocks vrow bc.blocks.length 0
        bc.blocks.length (Nat.zero_le _)).2 lo hres
      dsimp only
      by_cases hlo : 0 < lo ∧ lo ≤ bc.blocks.length
      · rw [if_pos hlo]
        exact ⟨_, rfl⟩
      · rw [if_neg hlo, if_pos hlen]
        exact ⟨_, rfl⟩
  · intro byte_pos
    unfold block_index_at_pos
    rw [if_neg hguard]
    rcases hres : bsearch_pos_go bc.blocks byte_pos bc.blocks.length 0 bc.blocks.length with i | lo
    · have := (bsearch_pos_go_range bc.blocks byte_pos bc.blocks.length 0
        bc.blocks.length (Nat.zero_le _)).1 i hres
      exact ⟨i, rfl, this.2⟩
    · have hrange := (bsearch_pos_go_range bc.blocks byte_pos bc.blocks.length 0
        bc.blocks.length (Nat.zero_le _)).2 lo hres
      dsimp only
      by_cases h1 : 0 < lo ∧ (bc.blocks.getD (lo - 1) dummy_block).stop ≤ byte_pos
      · rw [if_pos h1]
        exact ⟨lo - 1, rfl, by omega⟩
      · rw [if_neg h1]
        by_cases h2 : lo < bc.blocks.length
        · rw [if_pos h2]
          exact ⟨lo, rfl, h2⟩
        · rw [if_neg h2]
          exact ⟨bc.blocks.length - 1, rfl, by omega⟩
  · intro byte_pos hall
    unfold block_index_at_pos
    rw [if_neg hguard,
      bsearch_pos_go_all_past bc.blocks byte_pos hall bc.blocks.length 0
        bc.blocks.length (Nat.le_refl _) (Nat.zero_le _) (by omega)]
    dsimp only
    rw [if_pos (And.intro hlen
      (hall _ (block_getD_mem bc.blocks _ (by omega) dummy_block)).2)]

/-- Witness for C10: a concrete valid two-block cache; a negative vrow still
resolves to a block, byte position 99 (past both blocks) resolves to the
last index 1. -/
theorem C10_witness :
    (∃ b, block_at_vrow
      ⟨[⟨BlockData.hr 3, 0, 4, 0, 1⟩, ⟨BlockData.paragraph [], 4, 9, 1, 2⟩],
        9, 3, true, 80, 24⟩ (-3) = some b) ∧
    (∃ i, block_index_at_pos
      ⟨[⟨BlockData.hr 3, 0, 4, 0, 1⟩, ⟨BlockData.paragraph [], 4, 9, 1, 2⟩],
        9, 3, true, 80, 24⟩ 99 = some i ∧ i < 2) ∧
    block_index_at_pos
      ⟨[⟨BlockData.hr 3, 0, 4, 0, 1⟩, ⟨BlockData.paragraph [], 4, 9, 1, 2⟩],
        9, 3, true, 80, 24⟩ 99 = some 1 :=
  ⟨(C10_block_queries_total _ rfl (by decide)).1 (-3),
   (C10_block_queries_total _ rfl (by decide)).2.1 99,
   (C10_block_queries_total _ rfl (by decide)).2.2 99 (by decide)⟩

-- #endregion

-- #region Scanner bounds (towards the tiling invariant)

theorem gap_at_lt_length (gb : Buf) (pos : Nat) (h : gap_at gb pos ≠ 0) :
    pos < gb.length := by
  by_contra hc
  exact h (by unfold gap_at; exact List.getD_eq_default gb 0 (by omega))

theorem find_line_end_go_spec (gb : Buf) :
    ∀ (f pos : Nat), gb.length - pos ≤ f → pos ≤ gb.length →
      pos ≤ find_line_end_go gb f pos ∧ find_line_end_go gb f pos ≤ gb.length ∧
        (find_line_end_go gb f pos = gb.length ∨
          gap_at gb (find_line_end_go gb f pos) = 10)
  | 0, pos, hf, hle => by
      have hpl : pos = gb.length := by omega
      simp [find_line_end_go, hpl]
  | f + 1, pos, hf, hle => by
      by_cases hg : pos < gb.length ∧ gap_at gb pos ≠ 10
      · have ih := find_line_end_go_spec gb f (pos + 1) (by omega) (by omega)
        simp only [find_line_end_go, if_pos hg]
        exact ⟨by omega, ih.2.1, ih.2.2⟩
      · simp only [find_line_end_go, if_neg hg]
        push_neg at hg
        refine ⟨Nat.le_refl _, hle, ?_⟩
        by_cases hp : pos < gb.length
        · exact Or.inr (hg hp)
        · exact Or.inl (by omega)

theorem find_line_end_spec (gb : Buf) (pos : Nat) (h : pos ≤ gb.length) :
    pos ≤ find_line_end gb pos ∧ find_line_end gb pos ≤ gb.length ∧
      (find_line_end gb pos = gb.length ∨ gap_at gb (find_line_end gb pos) = 10) :=
  find_line_end_go_spec gb (gb.length - pos) pos (Nat.le_refl _) h

theorem count_spaces_go_le (gb : Buf) :
    ∀ (f pos : Nat), pos ≤ gb.length → pos + count_spaces_go gb f pos ≤ gb.length
  | 0, pos, h => by simpa [count_spaces_go] using h
  | f + 1, pos, h => by
      by_cases hg : pos < gb.length ∧ gap_at gb pos = 32
      · have ih := count_spaces_go_le gb f (pos + 1) (by omega)
        simp only [count_spaces_go, if_pos hg]
        omega
      · simp only [count_spaces_go, if_neg hg]
        omega

theorem count_spaces_le (gb : Buf) (pos : Nat) (h : pos ≤ gb.length) :
    pos + count_spaces gb pos ≤ gb.length :=
  count_spaces_go_le gb (gb.length - pos) pos h

theorem find_close_paren_go_spec (gb : Buf) :
    ∀ (f p q : Nat), find_close_paren_go gb f p = some q →
      p ≤ q ∧ q < gb.length ∧ gap_at gb q = 41
  | 0, p, q, h => by simp [find_close_paren_go] at h
  | f + 1, p, q, h => by
      simp only [find_close_paren_go] at h
      by_cases h1 : p < gb.length
      · rw [if_pos h1] at h
        by_cases h2 : gap_at gb p = 10
        · rw [if_pos h2] at h
          cases h
        · rw [if_neg h2] at h
          by_cases h3 : gap_at gb p = 41
          · rw [if_pos h3] at h
            cases h
            exact ⟨Nat.le_refl _, h1, h3⟩
          · rw [if_neg h3] at h
            have ih := find_close_paren_go_spec gb f (p + 1) q h
            exact ⟨by omega, ih.2⟩
      · rw [if_neg h1] at h
        cases h

theorem find_close_bracket_go_spec (gb : Buf) :
    ∀ (f p dep q : Nat), find_close_bracket_go gb f p dep = some q →
      p ≤ q ∧ q < gb.length ∧ gap_at gb q = 93
  | 0, p, dep, q, h => by simp [find_close_bracket_go] at h
  | f + 1, p, dep, q, h => by
      simp only [find_close_bracket_go] at h
      by_cases h1 : p < gb.length
      · rw [if_pos h1] at h
        by_cases h2 : gap_at gb p = 10
        · rw [if_pos h2] at h
          cases h
        · rw [if_neg h2] at h
          by_cases h3 : gap_at gb p = 91
          · rw [if_pos h3] at h
            have ih := find_close_bracket_go_spec gb f (p + 1) (dep + 1) q h
            exact ⟨by omega, ih.2⟩
          · rw [if_neg h3] at h
            by_cases h4 : gap_at gb p = 93
            · rw [if_pos h4] at h
              by_cases h5 : dep = 0
              · rw [if_pos h5] at h
                cases h
                exact ⟨Nat.le_refl _, h1, h4⟩
              · rw [if_neg h5] at h
                have ih := find_close_bracket_go_spec gb f (p + 1) (dep - 1) q h
                exact ⟨by omega, ih.2⟩
            · rw [if_neg h4] at h
              have ih := find_close_bracket_go_spec gb f (p + 1) dep q h
              exact ⟨by omega, ih.2⟩
      · rw [if_neg h1] at h
        cases h

theorem find_close_brace_go_spec (gb : Buf) :
    ∀ (f p q : Nat), find_close_brace_go gb f p = some q →
      p ≤ q ∧ q < gb.length ∧ gap_at gb q = 125
  | 0, p, q, h => by simp [find_close_brace_go] at h
  | f + 1, p, q, h => by
      simp only [find_close_brace_go] at h
      by_cases h1 : p < gb.length
      · rw [if_pos h1] at h
        by_cases h2 : gap_at gb p = 10
        · rw [if_pos h2] at h
          cases h
        · rw [if_neg h2] at h
          by_cases h3 : gap_at gb p = 125
          · rw [if_pos h3] at h
            cases h
            exact ⟨Nat.le_refl _, h1, h3⟩
          · rw [if_neg h3] at h
            have ih := find_close_brace_go_spec gb f (p + 1) q h
            exact ⟨by omega, ih.2⟩
      · rw [if_neg h1] at h
        cases h

theorem find_dollar_close_go_spec (gb : Buf) :
    ∀ (f p q : Nat), find_dollar_close_go gb f p = some q →
      p ≤ q ∧ q < gb.length ∧ gap_at gb q = 36 ∧
        (∀ k, p ≤ k → k < q → gap_at gb k ≠ 10)
  | 0, p, q, h => by simp [find_dollar_close_go] at h
  | f + 1, p, q, h => by
      simp only [find_dollar_close_go] at h
      by_cases h1 : p < gb.length
      · rw [if_pos h1] at h
        by_cases h2 : gap_at gb p = 10
        · rw [if_pos h2] at h
          cases h
        · rw [if_neg h2] at h
          by_cases h3 : gap_at gb p = 36
          · rw [if_pos h3] at h
            cases h
            exact ⟨Nat.le_refl _, h1, h3, fun k hk1 hk2 => by omega⟩
          · rw [if_neg h3] at h
            have ih := find_dollar_close_go_spec gb f (p + 1) q h
            refine ⟨by omega, ih.2.1, ih.2.2.1, fun k hk1 hk2 => ?_⟩
            rcases Nat.eq_or_lt_of_le hk1 with hk | hk
            · exact hk ▸ h2
            · exact ih.2.2.2 k hk hk2
      · rw [if_neg h1] at h
        cases h

theorem find_fence_go_spec (gb : Buf) :
    ∀ (f p q : Nat), find_fence_go gb f p = some q →
      p ≤ q ∧ gap_at gb q = 96 ∧ gap_at gb (q + 1) = 96 ∧ gap_at gb (q + 2) = 96
  | 0, p, q, h => by simp [find_fence_go] at h
  | f + 1, p, q, h => by
      simp only [find_fence_go] at h
      by_cases h1 : p < gb.length
      · rw [if_pos h1] at h
        by_cases h2 : gap_at gb p = 96 ∧ gap_at gb (p + 1) = 96 ∧ gap_at gb (p + 2) = 96
        · rw [if_pos h2] at h
          cases h
          exact ⟨Nat.le_refl _, h2⟩
        · rw [if_neg h2] at h
          have hle := (find_line_end_spec gb p (by omega)).1
          have ih := find_fence_go_spec gb f (find_line_end gb p + 1) q h
          exact ⟨by omega, ih.2⟩
      · rw [if_neg h1] at h
        cases h

theorem find_math_fence_go_spec (gb : Buf) :
    ∀ (f p q : Nat), find_math_fence_go gb f p = some q →
      p ≤ q ∧ gap_at gb q = 36 ∧ gap_at gb (q + 1) = 36
  | 0, p, q, h => by simp [find_math_fence_go] at h
  | f + 1, p, q, h => by
      simp only [find_math_fence_go] at h
      by_cases h1 : p < gb.length
      · rw [if_pos h1] at h
        by_cases h2 : gap_at gb p = 36 ∧ gap_at gb (p + 1) = 36 ∧
            find_line_end gb (p + 2) = p + 2
        · rw [if_pos h2] at h
          cases h
          exact ⟨Nat.le_refl _, h2.1, h2.2.1⟩
        · rw [if_neg h2] at h
          have hle := (find_line_end_spec gb p (by omega)).1
          have ih := find_math_fence_go_spec gb f (find_line_end gb p + 1) q h
          exact ⟨by omega, ih.2⟩
      · rw [if_neg h1] at h
        cases h

-- #endregion

theorem md_check_link_bounds (gb : Buf) (pos ts tl us ul total : Nat)
    (h : md_check_link gb pos = some (ts, tl, us, ul, total)) :
    0 < total ∧ pos + total ≤ gb.length := by
  simp only [md_check_link] at h
  by_cases h1 : gap_at gb pos = 91
  · rw [if_pos h1] at h
    rcases hbr : find_close_bracket_go gb (gb.length - (pos + 1)) (pos + 1) 0
      with _ | close
    · rw [hbr] at h
      cases h
    · rw [hbr] at h
      dsimp only at h
      by_cases h2 : gap_at gb (close + 1) = 40
      · rw [if_pos h2] at h
        rcases hpr : find_close_paren_go gb (gb.length - (close + 2)) (close + 2)
          with _ | rp
        · rw [hpr] at h
          cases h
        · rw [hpr] at h
          dsimp only at h
          simp only [Option.some.injEq, Prod.mk.injEq] at h
          obtain ⟨-, -, -, -, h5⟩ := h
          subst h5
          have hb := find_close_bracket_go_spec gb _ _ _ _ hbr
          have hp := find_close_paren_go_spec gb _ _ _ hpr
          omega
      · rw [if_neg h2] at h
        cases h
  · rw [if_neg h1] at h
    cases h

theorem md_check_image_bounds (gb : Buf) (pos a b c d : Nat) (w hh : Int)
    (total : Nat)
    (h : md_check_image gb pos = some (a, b, c, d, w, hh, total)) :
    0 < total ∧ pos + total ≤ gb.length := by
  simp only [md_check_image] at h
  by_cases h1 : gap_at gb pos = 33
  · rw [if_pos h1] at h
    rcases hlink : md_check_link gb (pos + 1) with _ | ⟨ts, tl, us, ul, ltot⟩
    · rw [hlink] at h
      cases h
    · rw [hlink] at h
      dsimp only at h
      have hlb := md_check_link_bounds gb (pos + 1) ts tl us ul ltot hlink
      by_cases h2 : gap_at gb (pos + 1 + ltot) = 123
      · rw [if_pos h2] at h
        have hlt : pos + 1 + ltot < gb.length := gap_at_lt_length gb _ (by omega)
        rcases hbc : find_close_brace_go gb (gb.length - (pos + 1 + ltot + 1))
            (pos + 1 + ltot + 1) with _ | rb
        · rw [hbc] at h
          dsimp only at h
          simp only [Option.some.injEq, Prod.mk.injEq] at h
          obtain ⟨-, -, -, -, -, -, h7⟩ := h
          subst h7
          omega
        · rw [hbc] at h
          dsimp only at h
          simp only [Option.some.injEq, Prod.mk.injEq] at h
          obtain ⟨-, -, -, -, -, -, h7⟩ := h
          subst h7
          have hbb := find_close_brace_go_spec gb _ _ _ hbc
          omega
      · rw [if_neg h2] at h
        simp only [Option.some.injEq, Prod.mk.injEq] at h
        obtain ⟨-, -, -, -, -, -, h7⟩ := h
        subst h7
        omega
  · rw [if_neg h1] at h
    cases h

theorem md_check_hr_val (gb : Buf) (pos n : Nat) (h : md_check_hr gb pos = some n) :
    n = find_line_end gb pos - pos := by
  simp only [md_check_hr] at h
  split at h
  · cases h
  · split at h
    · cases h
      rfl
    · cases h

theorem md_check_code_block_bounds (gb : Buf) (pos a b c d total : Nat)
    (h : md_check_code_block gb pos = some (a, b, c, d, total)) :
    0 < total ∧ pos + total ≤ gb.length := by
  simp only [md_check_code_block] at h
  by_cases h1 : gap_at gb pos = 96 ∧ gap_at gb (pos + 1) = 96 ∧
      gap_at gb (pos + 2) = 96
  · rw [if_pos h1] at h
    have hp2 : pos + 2 < gb.length := gap_at_lt_length gb _ (by omega)
    have hfle := find_line_end_spec gb (pos + 3) (by omega)
    by_cases h2 : find_line_end gb (pos + 3) < gb.length
    · rw [if_pos h2] at h
      rcases hfen : find_fence_go gb (gb.length - (find_line_end gb (pos + 3) + 1))
          (find_line_end gb (pos + 3) + 1) with _ | q
      · rw [hfen] at h
        dsimp only at h
        simp only [Option.some.injEq, Prod.mk.injEq] at h
        obtain ⟨-, -, -, -, h5⟩ := h
        subst h5
        omega
      · rw [hfen] at h
        dsimp only at h
        have hq := find_fence_go_spec gb _ _ _ hfen
        have hq2 : q + 2 < gb.length := gap_at_lt_length gb _ (by omega)
        have hfe := find_line_end_spec gb (q + 3) (by omega)
        simp only [Option.some.injEq, Prod.mk.injEq] at h
        obtain ⟨-, -, -, -, h5⟩ := h
        subst h5
        by_cases h3 : find_line_end gb (q + 3) < gb.length
        · rw [if_pos h3]
          omega
        · rw [if_neg h3]
          omega
    · rw [if_neg h2] at h
      simp only [Option.some.injEq, Prod.mk.injEq] at h
      obtain ⟨-, -, -, -, h5⟩ := h
      subst h5
      omega
  · rw [if_neg h1] at h
    cases h

theorem md_check_block_math_full_bounds (gb : Buf) (pos c d total : Nat)
    (h : md_check_block_math_full gb pos = some (c, d, total)) :
    0 < total ∧ pos + total ≤ gb.length := by
  simp only [md_check_block_math_full] at h
  by_cases h1 : gap_at gb pos = 36 ∧ gap_at gb (pos + 1) = 36 ∧
      find_line_end gb (pos + 2) = pos + 2
  · rw [if_pos h1] at h
    have hp1 : pos + 1 < gb.length := gap_at_lt_length gb _ (by omega)
    by_cases h2 : pos + 2 < gb.length
    · rw [if_pos h2] at h
      rcases hfen : find_math_fence_go gb (gb.length - (pos + 3)) (pos + 3)
          with _ | q
      · rw [hfen] at h
        dsimp only at h
        simp only [Option.some.injEq, Prod.mk.injEq] at h
        obtain ⟨-, -, h5⟩ := h
        subst h5
        omega
      · rw [hfen] at h
        dsimp only at h
        have hq := find_math_fence_go_spec gb _ _ _ hfen
        have hq1 : q + 1 < gb.length := gap_at_lt_length gb _ (by omega)
        have hfe := find_line_end_spec gb (q + 2) (by omega)
        simp only [Option.some.injEq, Prod.mk.injEq] at h
        obtain ⟨-, -, h5⟩ := h
        subst h5
        by_cases h3 : find_line_end gb (q + 2) < gb.length
        · rw [if_pos h3]
          omega
        · rw [if_neg h3]
          omega
    · rw [if_neg h2] at h
      simp only [Option.some.injEq, Prod.mk.injEq] at h
      obtain ⟨-, -, h5⟩ := h
      subst h5
      omega
  · rw [if_neg h1] at h
    cases h

theorem md_check_table_header_bounds (gb : Buf) (pos c l : Nat)
    (h : md_check_table_header gb pos = some (c, l)) :
    0 < l ∧ pos + l ≤ gb.length := by
  simp only [md_check_table_header] at h
  by_cases h1 : gap_at gb pos = 124
  · rw [if_pos h1] at h
    have hp : pos < gb.length := gap_at_lt_length gb _ (by omega)
    have hle := find_line_end_spec gb pos (by omega)
    simp only [Option.some.injEq, Prod.mk.injEq] at h
    obtain ⟨-, h2⟩ := h
    subst h2
    by_cases h3 : find_line_end gb pos < gb.length
    · rw [if_pos h3]
      omega
    · rw [if_neg h3]
      omega
  · rw [if_neg h1] at h
    cases h

theorem md_check_table_delimiter_bounds (gb : Buf) (pos c : Nat) (al : List Nat)
    (l : Nat) (h : md_check_table_delimiter gb pos = some (c, al, l)) :
    0 < l ∧ pos + l ≤ gb.length := by
  simp only [md_check_table_delimiter] at h
  by_cases h1 : gap_at gb pos = 124
  · rw [if_pos h1] at h
    have hp : pos < gb.length := gap_at_lt_length gb _ (by omega)
    have hle := find_line_end_spec gb pos (by omega)
    split at h
    · simp only [Option.some.injEq, Prod.mk.injEq] at h
      obtain ⟨-, -, h2⟩ := h
      subst h2
      by_cases h3 : find_line_end gb pos < gb.length
      · rw [if_pos h3]
        omega
      · rw [if_neg h3]
        omega
    · cases h
  · rw [if_neg h1] at h
    cases h

theorem table_data_rows_go_le (gb : Buf) :
    ∀ (f p : Nat), p ≤ gb.length → p + (table_data_rows_go gb f p).2 ≤ gb.length
  | 0, p, hp => by simpa [table_data_rows_go] using hp
  | f + 1, p, hp => by
      simp only [table_data_rows_go]
      rcases hh : md_check_table_header gb p with _ | ⟨c, hlen⟩
      · simpa using hp
      · have hb := md_check_table_header_bounds gb p c hlen hh
        have ih := table_data_rows_go_le gb f (p + hlen) (by omega)
        dsimp only
        omega

theorem md_check_table_bounds (gb : Buf) (pos : Nat) (tbl : MdTable)
    (h : md_check_table gb pos = some tbl) :
    0 < tbl.total_len ∧ pos + tbl.total_len ≤ gb.length := by
  simp only [md_check_table] at h
  rcases hh : md_check_table_header gb pos with _ | ⟨cols, hlen⟩
  · rw [hh] at h
    cases h
  · rw [hh] at h
    dsimp only at h
    rcases hd : md_check_table_delimiter gb (pos + hlen) with _ | ⟨dc, aligns, dlen⟩
    · rw [hd] at h
      cases h
    · rw [hd] at h
      dsimp only at h
      have hb1 := md_check_table_header_bounds gb pos cols hlen hh
      have hb2 := md_check_table_delimiter_bounds gb (pos + hlen) dc aligns dlen hd
      have hb3 := table_data_rows_go_le gb (gb.length - (pos + hlen + dlen))
        (pos + hlen + dlen) (by omega)
      cases h
      dsimp only
      omega

theorem md_check_footnote_def_bounds (gb : Buf) (pos a b cs d : Nat)
    (h : md_check_footnote_def gb pos = some (a, b, cs, d)) :
    pos + 4 ≤ cs ∧ cs ≤ gb.length := by
  simp only [md_check_footnote_def] at h
  split at h
  · cases h
  · by_cases h1 : gap_at gb pos = 91 ∧ gap_at gb (pos + 1) = 94
    · rw [if_pos h1] at h
      by_cases h2 : 0 < count_fn_id gb (pos + 2) ∧
          gap_at gb (pos + 2 + count_fn_id gb (pos + 2)) = 93 ∧
          gap_at gb (pos + 3 + count_fn_id gb (pos + 2)) = 58
      · rw [if_pos h2] at h
        simp only [Option.some.injEq, Prod.mk.injEq] at h
        obtain ⟨-, -, h3, -⟩ := h
        subst h3
        have hlt : pos + 3 + count_fn_id gb (pos + 2) < gb.length :=
          gap_at_lt_length gb _ (by omega)
        by_cases h4 : gap_at gb (pos + 4 + count_fn_id gb (pos + 2)) = 32
        · rw [if_pos h4]
          have h5 : pos + 4 + count_fn_id gb (pos + 2) < gb.length :=
            gap_at_lt_length gb _ (by omega)
          omega
        · rw [if_neg h4]
          omega
      · rw [if_neg h2] at h
        cases h
    · rw [if_neg h1] at h
      cases h

theorem footnote_def_end_go_bounds (gb : Buf) :
    ∀ (f e : Nat), e ≤ gb.length →
      e ≤ footnote_def_end_go gb f e ∧ footnote_def_end_go gb f e ≤ gb.length
  | 0, e, he => by
      simp only [footnote_def_end_go]
      omega
  | f + 1, e, he => by
      simp only [footnote_def_end_go]
      by_cases h1 : e < gb.length
      · rw [if_pos h1]
        have hle := find_line_end_spec gb e (by omega)
        by_cases h2 : gb.length ≤ find_line_end gb e
        · rw [if_pos h2]
          omega
        · rw [if_neg h2]
          by_cases h3 : find_line_end gb e + 1 < gb.length
          · rw [if_pos h3]
            by_cases h4 : gap_at gb (find_line_end gb e + 1) = 10
            · rw [if_pos h4]
              omega
            · rw [if_neg h4]
              rcases hfd : md_check_footnote_def gb (find_line_end gb e + 1)
                  with _ | r
              · dsimp only
                have ih := footnote_def_end_go_bounds gb f
                  (find_line_end gb e + 1) (by omega)
                omega
              · dsimp only
                omega
          · rw [if_neg h3]
            omega
      · rw [if_neg h1]
        omega

theorem blockquote_end_go_bounds (gb : Buf) :
    ∀ (f e : Nat), e ≤ gb.length →
      e ≤ blockquote_end_go gb f e ∧ blockquote_end_go gb f e ≤ gb.length
  | 0, e, he => by
      simp only [blockquote_end_go]
      omega
  | f + 1, e, he => by
      simp only [blockquote_end_go]
      by_cases h1 : e < gb.length
      · rw [if_pos h1]
        by_cases h2 : gap_at gb e = 10
        · rw [if_pos h2]
          by_cases h3 : e + 1 < gb.length ∧ gap_at gb (e + 1) = 62
          · rw [if_pos h3]
            have hle := find_line_end_spec gb (e + 1) (by omega)
            have ih := blockquote_end_go_bounds gb f
              (find_line_end gb (e + 1)) (by omega)
            omega
          · rw [if_neg h3]
            omega
        · rw [if_neg h2]
          by_cases h3 : e < gb.length ∧ gap_at gb e = 62
          · rw [if_pos h3]
            have hle := find_line_end_spec gb e (by omega)
            have ih := blockquote_end_go_bounds gb f (find_line_end gb e) (by omega)
            omega
          · rw [if_neg h3]
            omega
      · rw [if_neg h1]
        omega

theorem count_gts_go_pos (gb : Buf) (f pos : Nat)
    (h : 0 < count_gts_go gb f pos) : pos < gb.length ∧ gap_at gb pos = 62 := by
  match f with
  | 0 => simp [count_gts_go] at h
  | f + 1 =>
      by_cases hg : pos < gb.length ∧ gap_at gb pos = 62
      · exact hg
      · rw [count_gts_go, if_neg hg] at h
        omega

theorem parse_paragraph_end_go_bounds (gb : Buf) :
    ∀ (f p : Nat), p ≤ gb.length →
      p ≤ parse_paragraph_end_go gb f p ∧ parse_paragraph_end_go gb f p ≤ gb.length
  | 0, p, hp => by
      simp only [parse_paragraph_end_go]
      omega
  | f + 1, p, hp => by
      simp only [parse_paragraph_end_go]
      by_cases h1 : p < gb.length
      · rw [if_pos h1]
        by_cases h2 : gap_at gb p = 10 ∧ p + 1 < gb.length ∧ gap_at gb (p + 1) = 10
        · rw [if_pos h2]
          omega
        · rw [if_neg h2]
          by_cases h3 : gap_at gb p = 10 ∧ p + 1 < gb.length ∧
              is_block_start gb (p + 1) = true
          · rw [if_pos h3]
            omega
          · rw [if_neg h3]
            have ih := parse_paragraph_end_go_bounds gb f (p + 1) (by omega)
            omega
      · rw [if_neg h1]
        omega

theorem parse_paragraph_end_go_strict (gb : Buf) (f p : Nat) (hp : p < gb.length)
    (hf : 1 ≤ f) (he : parse_paragraph_end_go gb f p = p) : gap_at gb p = 10 := by
  obtain ⟨g, rfl⟩ : ∃ g, f = g + 1 := ⟨f - 1, by omega⟩
  simp only [parse_paragraph_end_go] at he
  rw [if_pos hp] at he
  by_cases h2 : gap_at gb p = 10 ∧ p + 1 < gb.length ∧ gap_at gb (p + 1) = 10
  · rw [if_pos h2] at he
    omega
  · rw [if_neg h2] at he
    by_cases h3 : gap_at gb p = 10 ∧ p + 1 < gb.length ∧
        is_block_start gb (p + 1) = true
    · exact h3.1
    · rw [if_neg h3] at he
      have hb := parse_paragraph_end_go_bounds gb g (p + 1) (by omega)
      omega

theorem parse_paragraph_end_bounds (gb : Buf) (pos : Nat) (h : pos < gb.length) :
    pos < parse_paragraph_end gb pos ∧ parse_paragraph_end gb pos ≤ gb.length := by
  have hb := parse_paragraph_end_go_bounds gb (gb.length - pos) pos (by omega)
  by_cases heq : parse_paragraph_end_go gb (gb.length - pos) pos = pos
  · have hnl := parse_paragraph_end_go_strict gb (gb.length - pos) pos h
      (by omega) heq
    unfold parse_paragraph_end
    rw [heq, if_pos ⟨h, hnl⟩]
    omega
  · simp only [parse_paragraph_end]
    split
    · omega
    · omega

theorem try_parse_image_bounds (gb : Buf) (pos : Nat) (d : BlockData) (stop : Nat)
    (hp : pos < gb.length) (h : try_parse_image gb pos = some (d, stop)) :
    pos < stop ∧ stop ≤ gb.length := by
  simp only [try_parse_image] at h
  split at h
  · cases h
  · rcases him : md_check_image gb pos with _ | ⟨a, b, c, e, w, hh, total⟩
    · rw [him] at h
      cases h
    · rw [him] at h
      dsimp only at h
      have hib := md_check_image_bounds gb pos a b c e w hh total him
      have hsp := count_spaces_le gb (pos + total) (by omega)
      split at h
      · cases h
      · by_cases h2 : pos + total + count_spaces gb (pos + total) < gb.length ∧
            gap_at gb (pos + total + count_spaces gb (pos + total)) = 10
        · rw [if_pos h2] at h
          cases h
          omega
        · rw [if_neg h2] at h
          cases h
          omega

theorem try_parse_code_block_bounds (gb : Buf) (pos : Nat) (d : BlockData)
    (stop : Nat) (hp : pos < gb.length)
    (h : try_parse_code_block gb pos = some (d, stop)) :
    pos < stop ∧ stop ≤ gb.length := by
  simp only [try_parse_code_block] at h
  split at h
  · cases h
  · rcases hc : md_check_code_block gb pos with _ | ⟨a, b, c, e, total⟩
    · rw [hc] at h
      cases h
    · rw [hc] at h
      dsimp only at h
      cases h
      have := md_check_code_block_bounds gb pos a b c e total hc
      omega

theorem try_parse_block_math_bounds (gb : Buf) (pos : Nat) (d : BlockData)
    (stop : Nat) (hp : pos < gb.length)
    (h : try_parse_block_math gb pos = some (d, stop)) :
    pos < stop ∧ stop ≤ gb.length := by
  simp only [try_parse_block_math] at h
  split at h
  · cases h
  · rcases hc : md_check_block_math_full gb pos with _ | ⟨a, b, total⟩
    · rw [hc] at h
      cases h
    · rw [hc] at h
      dsimp only at h
      cases h
      have := md_check_block_math_full_bounds gb pos a b total hc
      omega

theorem try_parse_table_bounds (gb : Buf) (pos : Nat) (d : BlockData)
    (stop : Nat) (hp : pos < gb.length)
    (h : try_parse_table gb pos = some (d, stop)) :
    pos < stop ∧ stop ≤ gb.length := by
  simp only [try_parse_table] at h
  split at h
  · cases h
  · rcases hc : md_check_table gb pos with _ | tbl
    · rw [hc] at h
      cases h
    · rw [hc] at h
      dsimp only at h
      cases h
      have := md_check_table_bounds gb pos tbl hc
      omega

theorem try_parse_hr_bounds (gb : Buf) (pos : Nat) (d : BlockData)
    (stop : Nat) (hp : pos < gb.length)
    (h : try_parse_hr gb pos = some (d, stop)) :
    pos < stop ∧ stop ≤ gb.length := by
  simp only [try_parse_hr] at h
  split at h
  · cases h
  · rcases hc : md_check_hr gb pos with _ | n
    · rw [hc] at h
      cases h
    · rw [hc] at h
      dsimp only at h
      have hval := md_check_hr_val gb pos n hc
      subst hval
      have hsp := find_line_end_spec gb pos (by omega)
      by_cases h2 : pos + (find_line_end gb pos - pos) < gb.length ∧
          gap_at gb (pos + (find_line_end gb pos - pos)) = 10
      · rw [if_pos h2] at h
        cases h
        omega
      · rw [if_neg h2] at h
        cases h
        have heq : pos + (find_line_end gb pos - pos) = find_line_end gb pos := by
          omega
        rw [heq] at h2
        omega

theorem try_parse_header_bounds (gb : Buf) (pos : Nat) (d : BlockData)
    (stop : Nat) (hp : pos < gb.length)
    (h : try_parse_header gb pos = some (d, stop)) :
    pos < stop ∧ stop ≤ gb.length := by
  simp only [try_parse_header] at h
  split at h
  · cases h
  · split at h
    · cases h
    · rcases hc : md_check_header_content gb pos with _ | ⟨lv, cs⟩
      · rw [hc] at h
        cases h
      · rw [hc] at h
        dsimp only at h
        have hsp := find_line_end_spec gb pos (by omega)
        by_cases h2 : find_line_end gb pos < gb.length ∧
            gap_at gb (find_line_end gb pos) = 10
        · rw [if_pos h2] at h
          rcases hid : md_check_heading_id gb cs with _ | ⟨a, b, c⟩ <;>
            rw [hid] at h <;> dsimp only at h <;> cases h <;> omega
        · rw [if_neg h2] at h
          rcases hid : md_check_heading_id gb cs with _ | ⟨a, b, c⟩ <;>
            rw [hid] at h <;> dsimp only at h <;> cases h <;> omega

theorem try_parse_footnote_def_bounds (gb : Buf) (pos : Nat) (d : BlockData)
    (stop : Nat) (hp : pos < gb.length)
    (h : try_parse_footnote_def gb pos = some (d, stop)) :
    pos < stop ∧ stop ≤ gb.length := by
  simp only [try_parse_footnote_def] at h
  split at h
  · cases h
  · rcases hc : md_check_footnote_def gb pos with _ | ⟨a, b, cs, e⟩
    · rw [hc] at h
      cases h
    · rw [hc] at h
      dsimp only at h
      cases h
      have hfb := md_check_footnote_def_bounds gb pos a b cs e hc
      have hgo := footnote_def_end_go_bounds gb (gb.length - cs) cs (by omega)
      omega

theorem try_parse_blockquote_bounds (gb : Buf) (pos : Nat) (d : BlockData)
    (stop : Nat) (hp : pos < gb.length)
    (h : try_parse_blockquote gb pos = some (d, stop)) :
    pos < stop ∧ stop ≤ gb.length := by
  simp only [try_parse_blockquote] at h
  split at h
  · cases h
  · have hat : md_check_blockquote gb pos = none ∨ gap_at gb pos = 62 := by
      simp only [md_check_blockquote]
      split
      · exact Or.inl rfl
      · by_cases hlv : 0 < count_gts gb pos
        · exact Or.inr (count_gts_go_pos gb _ pos hlv).2
        · rw [if_neg hlv]
          exact Or.inl rfl
    rcases hc : md_check_blockquote gb pos with _ | ⟨lv, cs⟩
    · rw [hc] at h
      cases h
    · rw [hc] at h
      dsimp only at h
      cases h
      rcases hat with hat | hat
      · rw [hat] at hc
        cases hc
      · have hsp := find_line_end_spec gb pos (by omega)
        have hgo := blockquote_end_go_bounds gb (gb.length - pos)
          (find_line_end gb pos) (by omega)
        have hlt : pos < find_line_end gb pos := by
          rcases Nat.eq_or_lt_of_le hsp.1 with heq | hlt
          · exfalso
            rcases hsp.2.2 with h' | h'
            · omega
            · rw [← heq] at h'
              omega
          · exact hlt
        omega

theorem try_parse_list_item_bounds (gb : Buf) (pos : Nat) (d : BlockData)
    (stop : Nat) (hp : pos < gb.length)
    (h : try_parse_list_item gb pos = some (d, stop)) :
    pos < stop ∧ stop ≤ gb.length := by
  simp only [try_parse_list_item] at h
  split at h
  · cases h
  · have hsp := find_line_end_spec gb pos (by omega)
    rcases ht : md_check_task gb pos with _ | ⟨a, b, c⟩
    · rw [ht] at h
      dsimp only at h
      rcases hl : md_check_list gb pos with _ | ⟨a, b, c⟩
      · rw [hl] at h
        cases h
      · rw [hl] at h
        dsimp only at h
        cases h
        by_cases h2 : find_line_end gb pos < gb.length ∧
            gap_at gb (find_line_end gb pos) = 10
        · rw [if_pos h2]
          omega
        · rw [if_neg h2]
          omega
    · rw [ht] at h
      dsimp only at h
      cases h
      by_cases h2 : find_line_end gb pos < gb.length ∧
          gap_at gb (find_line_end gb pos) = 10
      · rw [if_pos h2]
        omega
      · rw [if_neg h2]
        omega

theorem parse_block_at_bounds (gb : Buf) (pos : Nat) (hp : pos < gb.length) :
    pos < (parse_block_at gb pos).2 ∧ (parse_block_at gb pos).2 ≤ gb.length := by
  unfold parse_block_at
  rcases h1 : try_parse_image gb pos with _ | ⟨d1, s1⟩
  on_goal 2 => exact try_parse_image_bounds gb pos d1 s1 hp h1
  dsimp only
  rcases h2 : try_parse_code_block gb pos with _ | ⟨d2, s2⟩
  on_goal 2 => exact try_parse_code_block_bounds gb pos d2 s2 hp h2
  dsimp only
  rcases h3 : try_parse_block_math gb pos with _ | ⟨d3, s3⟩
  on_goal 2 => exact try_parse_block_math_bounds gb pos d3 s3 hp h3
  dsimp only
  rcases h4 : try_parse_table gb pos with _ | ⟨d4, s4⟩
  on_goal 2 => exact try_parse_table_bounds gb pos d4 s4 hp h4
  dsimp only
  rcases h5 : try_parse_hr gb pos with _ | ⟨d5, s5⟩
  on_goal 2 => exact try_parse_hr_bounds gb pos d5 s5 hp h5
  dsimp only
  rcases h6 : try_parse_header gb pos with _ | ⟨d6, s6⟩
  on_goal 2 => exact try_parse_header_bounds gb pos d6 s6 hp h6
  dsimp only
  rcases h7 : try_parse_footnote_def gb pos with _ | ⟨d7, s7⟩
  on_goal 2 => exact try_parse_footnote_def_bounds gb pos d7 s7 hp h7
  dsimp only
  rcases h8 : try_parse_blockquote gb pos with _ | ⟨d8, s8⟩
  on_goal 2 => exact try_parse_blockquote_bounds gb pos d8 s8 hp h8
  dsimp only
  rcases h9 : try_parse_list_item gb pos with _ | ⟨d9, s9⟩
  on_goal 2 => exact try_parse_list_item_bounds gb pos d9 s9 hp h9
  dsimp only
  exact parse_paragraph_end_bounds gb pos hp

-- #region C3: block tiling

/-- The tiling predicate: the blocks cover `[pos, stop)` contiguously and in
order. -/
def tiles : List Block → Nat → Nat → Prop
  | [], pos, stop => pos = stop
  | b :: rest, pos, stop => b.start = pos ∧ tiles rest b.stop stop

theorem block_cache_parse_go_tiles (ext : Externals) (gb : Buf) (w h : Nat) :
    ∀ (f pos vrow : Nat), pos ≤ gb.length → gb.length - pos ≤ f →
      tiles (block_cache_parse_go ext gb w h f pos vrow) pos gb.length
  | 0, pos, vrow, hle, hf => by
      simp only [block_cache_parse_go, tiles]
      omega
  | f + 1, pos, vrow, hle, hf => by
      simp only [block_cache_parse_go]
      by_cases h1 : pos < gb.length
      · rw [if_pos h1]
        have hb := parse_block_at_bounds gb pos h1
        simp only [tiles]
        refine ⟨by trivial, ?_⟩
        dsimp only
        exact block_cache_parse_go_tiles ext gb w h f (parse_block_at gb pos).2 _
          (by omega) (by omega)
      · rw [if_neg h1]
        simp only [tiles]
        omega

theorem tiles_ne_nil (bl : List Block) (pos stop : Nat) (h : tiles bl pos stop)
    (hne : pos ≠ stop) : bl ≠ [] := by
  cases bl with
  | nil => exact absurd h hne
  | cons b rest => simp

theorem tiles_head (bl : List Block) (pos stop : Nat) (h : tiles bl pos stop)
    (hne : bl ≠ []) : (bl.getD 0 dummy_block).start = pos := by
  cases bl with
  | nil => exact absurd rfl hne
  | cons b rest => exact h.1

theorem tiles_chain : ∀ (bl : List Block) (pos stop : Nat), tiles bl pos stop →
    ∀ i, i + 1 < bl.length →
      (bl.getD i dummy_block).stop = (bl.getD (i + 1) dummy_block).start
  | [], _, _, _, i, hi => by simp at hi
  | b :: rest, pos, stop, h, 0, hi => by
      have hrne : rest ≠ [] := by
        cases rest
        · simp at hi
        · simp
      have hh := tiles_head rest b.stop stop h.2 hrne
      exact hh.symm
  | b :: rest, pos, stop, h, i + 1, hi =>
      tiles_chain rest b.stop stop h.2 i (by simpa using hi)

theorem tiles_last : ∀ (bl : List Block) (pos stop : Nat), tiles bl pos stop →
    bl ≠ [] → (bl.getD (bl.length - 1) dummy_block).stop = stop
  | [], _, _, _, hne => absurd rfl hne
  | [b], pos, stop, h, _ => h.2
  | b :: c :: rest, pos, stop, h, _ => by
      have ih := tiles_last (c :: rest) b.stop stop h.2 (by simp)
      simpa using ih

/-- C3: for every document of positive length, the parsed blocks tile the
byte range exactly: the list is nonempty, the first block starts at 0, each
block ends where the next starts, and the last block ends at the document
length. -/
theorem C3_block_tiling (ext : Externals) (bc : BlockCacheM) (gb : Buf)
    (w h : Nat) (hlen : 0 < gb.length) :
    (block_cache_parse ext bc gb w h).blocks ≠ [] ∧
    ((block_cache_parse ext bc gb w h).blocks.getD 0 dummy_block).start = 0 ∧
    (∀ i, i + 1 < (block_cache_parse ext bc gb w h).blocks.length →
      ((block_cache_parse ext bc gb w h).blocks.getD i dummy_block).stop =
        ((block_cache_parse ext bc gb w h).blocks.getD (i + 1) dummy_block).start) ∧
    ((block_cache_parse ext bc gb w h).blocks.getD
        ((block_cache_parse ext bc gb w h).blocks.length - 1) dummy_block).stop =
      gb.length := by
  have ht : tiles (block_cache_parse ext bc gb w h).blocks 0 gb.length := by
    show tiles (block_cache_parse_go ext gb w h gb.length 0 0) 0 gb.length
    exact block_cache_parse_go_tiles ext gb w h gb.length 0 0 (by omega) (by omega)
  have hne := tiles_ne_nil _ _ _ ht (by omega)
  exact ⟨hne, tiles_head _ _ _ ht hne, tiles_chain _ _ _ ht, tiles_last _ _ _ ht hne⟩

/-- Witness for C3: the 9-byte document `"# H\n\npara"` parses to two blocks
(header, then paragraph) that tile `[0, 9)`. -/
theorem C3_witness :
    (block_cache_parse ext0 block_cache_init
      [35, 32, 72, 10, 10, 112, 97, 114, 97] 80 24).blocks ≠ [] ∧
    ((block_cache_parse ext0 block_cache_init
      [35, 32, 72, 10, 10, 112, 97, 114, 97] 80 24).blocks.getD 0
        dummy_block).start = 0 ∧
    ((block_cache_parse ext0 block_cache_init
      [35, 32, 72, 10, 10, 112, 97, 114, 97] 80 24).blocks.getD 0
        dummy_block).stop =
      ((block_cache_parse ext0 block_cache_init
        [35, 32, 72, 10, 10, 112, 97, 114, 97] 80 24).blocks.getD 1
          dummy_block).start ∧
    ((block_cache_parse ext0 block_cache_init
      [35, 32, 72, 10, 10, 112, 97, 114, 97] 80 24).blocks.getD
        ((block_cache_parse ext0 block_cache_init
          [35, 32, 72, 10, 10, 112, 97, 114, 97] 80 24).blocks.length - 1)
        dummy_block).stop = 9 :=
  ⟨(C3_block_tiling ext0 block_cache_init
      [35, 32, 72, 10, 10, 112, 97, 114, 97] 80 24 (by decide)).1,
   (C3_block_tiling ext0 block_cache_init
      [35, 32, 72, 10, 10, 112, 97, 114, 97] 80 24 (by decide)).2.1,
   (C3_block_tiling ext0 block_cache_init
      [35, 32, 72, 10, 10, 112, 97, 114, 97] 80 24 (by decide)).2.2.1 0
     (by decide),
   (C3_block_tiling ext0 block_cache_init
      [35, 32, 72, 10, 10, 112, 97, 114, 97] 80 24 (by decide)).2.2.2⟩

-- #endregion

-- #region C7: unclosed delimiters in the inline pre-pass

theorem md_style_add_contains (s d : Nat) :
    md_style_add s d &&& d = d := by
  unfold md_style_add
  apply Nat.eq_of_testBit_eq
  intro i
  simp only [Nat.testBit_and, Nat.testBit_or]
  cases hs : s.testBit i <;> cases hd : d.testBit i <;> rfl

/-- C7 (amended): the paragraph inline pre-pass pushes a style delimiter
whenever it does not close an open stack entry and the depth permits — it
performs no check for a matching closing delimiter before the next newline.
Even when no matching close exists anywhere on the rest of the range (the
`hnoclose` hypothesis), the delimiter is pushed, its bytes are skipped, and
its style bit is contained in the active style applied to subsequent runs. -/
theorem C7_push_without_closing_check (gb : Buf) (endp f : Nat) (st : ScanState)
    (d dl : Nat)
    (hpos : st.pos < endp)
    (hnl : gap_at gb st.pos ≠ 10)
    (hlink : md_check_link gb st.pos = none)
    (hfn : md_check_footnote_ref gb st.pos = none)
    (hmath : md_check_inline_math gb st.pos = none)
    (hemoji : md_check_emoji gb st.pos = none)
    (hdelim : md_check_delim gb st.pos = some (d, dl))
    (hdl : 0 < dl)
    (hnopop : stack_pop_find st.stack d dl = none)
    (hdepth : st.stack.length < 8)
    (hnoclose : ∀ q, st.pos + dl ≤ q → q < endp →
      gap_at gb q = 10 ∨ md_check_delim gb q ≠ some (d, dl)) :
    inline_runs_go gb endp (f + 1) st =
      inline_runs_go gb endp f
        ⟨st.pos + dl, st.pos + dl, (d, dl) :: st.stack,
          md_style_add st.active_style d, md_style_add st.active_style d,
          emit_text_run st⟩ ∧
    md_style_add st.active_style d &&& d = d := by
  refine ⟨?_, md_style_add_contains st.active_style d⟩
  simp only [inline_runs_go]
  rw [if_pos hpos, if_neg hnl, hlink]
  dsimp only
  rw [hfn]
  dsimp only
  rw [hmath]
  dsimp only
  rw [hemoji]
  dsimp only
  rw [hdelim]
  dsimp only
  rw [if_pos hdl, hnopop]
  dsimp only
  rw [if_pos hdepth]

/-- Witness for C7 (amended): in the line `"**b\n"` the opening `**` has no
matching close before the newline; the scanner still pushes bold at
position 0. -/
theorem C7_witness :
    inline_runs_go [42, 42, 98, 10] 4 (3 + 1) ⟨0, 0, [], 0, 0, []⟩ =
      inline_runs_go [42, 42, 98, 10] 4 3
        ⟨0 + 2, 0 + 2, [(1, 2)], md_style_add 0 1, md_style_add 0 1,
          emit_text_run ⟨0, 0, [], 0, 0, []⟩⟩ ∧
    md_style_add 0 1 &&& 1 = 1 := by
  exact C7_push_without_closing_check [42, 42, 98, 10] 4 3 ⟨0, 0, [], 0, 0, []⟩
    1 2 (by decide) (by decide) (by decide) (by decide) (by decide) (by decide)
    (by decide) (by decide) (by decide) (by decide)
    (by intro q h1 h2; interval_cases q <;> decide)

/-- Counterexample for C7 as stated: in the paragraph range `"**b\n"` the
`**` delimiter has no closing delimiter before the newline, yet the run
decomposition styles `b` bold (style bit 1) and drops the delimiter bytes —
an unclosed delimiter does apply styling and does not stay literal. -/
theorem C7_counterexample :
    block_parse_inline_runs [42, 42, 98, 10] 0 4 = [⟨2, 3, 1, RunData.text⟩] ∧
    ¬ (∀ r ∈ block_parse_inline_runs [42, 42, 98, 10] 0 4, r.style = 0) := by
  decide

-- #endregion

-- #region C8: run coverage of the paragraph inline pre-pass

theorem getD_append_last_any {α : Type} :
    ∀ (l : List α) (e d : α), (l ++ [e]).getD l.length d = e
  | [], _, _ => rfl
  | _ :: l, e, d => getD_append_last_any l e d

theorem getD_append_left_any {α : Type} :
    ∀ (l l2 : List α) (i : Nat), i < l.length → ∀ (d : α),
      (l ++ l2).getD i d = l.getD i d
  | _ :: _, _, 0, _, _ => rfl
  | _ :: l, l2, i + 1, h, d =>
      getD_append_left_any l l2 i (Nat.lt_of_succ_lt_succ h) d

theorem getD_mem_any {α : Type} :
    ∀ (l : List α) (i : Nat), i < l.length → ∀ (d : α), l.getD i d ∈ l
  | e :: _, 0, _, _ => List.mem_cons_self e _
  | _ :: l, i + 1, h, d =>
      List.mem_cons_of_mem _ (getD_mem_any l i (Nat.lt_of_succ_lt_succ h) d)

theorem find_close_paren_go_nonl (gb : Buf) :
    ∀ (f p q : Nat), find_close_paren_go gb f p = some q →
      ∀ k, p ≤ k → k < q → gap_at gb k ≠ 10
  | 0, p, q, h => by simp [find_close_paren_go] at h
  | f + 1, p, q, h => by
      simp only [find_close_paren_go] at h
      by_cases h1 : p < gb.length
      · rw [if_pos h1] at h
        by_cases h2 : gap_at gb p = 10
        · rw [if_pos h2] at h
          cases h
        · rw [if_neg h2] at h
          by_cases h3 : gap_at gb p = 41
          · rw [if_pos h3] at h
            cases h
            intro k hk1 hk2
            exact absurd hk2 (Nat.not_lt.mpr hk1)
          · rw [if_neg h3] at h
            intro k hk1 hk2
            rcases Nat.eq_or_lt_of_le hk1 with hk | hk
            · exact hk ▸ h2
            · exact find_close_paren_go_nonl gb f (p + 1) q h k hk hk2
      · rw [if_neg h1] at h
        cases h

theorem find_close_bracket_go_nonl (gb : Buf) :
    ∀ (f p dep q : Nat), find_close_bracket_go gb f p dep = some q →
      ∀ k, p ≤ k → k < q → gap_at gb k ≠ 10
  | 0, p, dep, q, h => by simp [find_close_bracket_go] at h
  | f + 1, p, dep, q, h => by
      simp only [find_close_bracket_go] at h
      by_cases h1 : p < gb.length
      · rw [if_pos h1] at h
        by_cases h2 : gap_at gb p = 10
        · rw [if_pos h2] at h
          cases h
        · rw [if_neg h2] at h
          by_cases h3 : gap_at gb p = 91
          · rw [if_pos h3] at h
            intro k hk1 hk2
            rcases Nat.eq_or_lt_of_le hk1 with hk | hk
            · exact hk ▸ h2
            · exact find_close_bracket_go_nonl gb f (p + 1) (dep + 1) q h k hk hk2
          · rw [if_neg h3] at h
            by_cases h4 : gap_at gb p = 93
            · rw [if_pos h4] at h
              by_cases h5 : dep = 0
              · rw [if_pos h5] at h
                cases h
                intro k hk1 hk2
                exact absurd hk2 (Nat.not_lt.mpr hk1)
              · rw [if_neg h5] at h
                intro k hk1 hk2
                rcases Nat.eq_or_lt_of_le hk1 with hk | hk
                · exact hk ▸ h2
                · exact find_close_bracket_go_nonl gb f (p + 1) (dep - 1) q h k hk hk2
            · rw [if_neg h4] at h
              intro k hk1 hk2
              rcases Nat.eq_or_lt_of_le hk1 with hk | hk
              · exact hk ▸ h2
              · exact find_close_bracket_go_nonl gb f (p + 1) dep q h k hk hk2
      · rw [if_neg h1] at h
        cases h

theorem count_fn_id_go_facts (gb : Buf) :
    ∀ (f p j : Nat), j < count_fn_id_go gb f p →
      p + j < gb.length ∧ gap_at gb (p + j) ≠ 10
  | 0, p, j, h => by simp [count_fn_id_go] at h
  | f + 1, p, j, h => by
      simp only [count_fn_id_go] at h
      by_cases h1 : p < gb.length ∧ gap_at gb p ≠ 93 ∧ gap_at gb p ≠ 10
      · rw [if_pos h1] at h
        match j with
        | 0 => exact ⟨by omega, h1.2.2⟩
        | j + 1 =>
            have ih := count_fn_id_go_facts gb f (p + 1) j (by omega)
            have harith : p + (j + 1) = p + 1 + j := by omega
            rw [harith]
            exact ih
      · rw [if_neg h1] at h
        exact absurd h (by omega)

theorem bytes_match_at_spec (gb : Buf) :
    ∀ (l : List Nat) (q : Nat), bytes_match_at gb q l = true →
      ∀ j, j < l.length → gap_at gb (q + j) = l.getD j 0
  | [], q, h, j, hj => by simp at hj
  | c :: rest, q, h, j, hj => by
      simp only [bytes_match_at, Bool.and_eq_true, decide_eq_true_eq] at h
      match j with
      | 0 => simpa using h.1
      | j + 1 =>
          have ih := bytes_match_at_spec gb rest (q + 1) h.2 j (by simpa using hj)
          have harith : q + (j + 1) = q + 1 + j := by omega
          rw [harith]
          simpa [List.getD_cons_succ] using ih

theorem emoji_find_spec (gb : Buf) (pos : Nat) :
    ∀ (l : List (List Nat × List Nat)) (glyph : List Nat) (nlen : Nat),
      emoji_find gb pos l = some (glyph, nlen) →
      ∃ name, (name, glyph) ∈ l ∧ name.length = nlen ∧
        bytes_match_at gb pos (name ++ [58]) = true
  | [], glyph, nlen, h => by simp [emoji_find] at h
  | (name, g) :: rest, glyph, nlen, h => by
      simp only [emoji_find] at h
      by_cases h1 : bytes_match_at gb pos (name ++ [58]) = true
      · rw [if_pos h1] at h
        simp only [Option.some.injEq, Prod.mk.injEq] at h
        obtain ⟨h2, h3⟩ := h
        exact ⟨name, by rw [← h2]; exact List.mem_cons_self _ _, h3, h1⟩
      · rw [if_neg h1] at h
        obtain ⟨nm, hm, hl, hb⟩ := emoji_find_spec gb pos rest glyph nlen h
        exact ⟨nm, List.mem_cons_of_mem _ hm, hl, hb⟩

theorem parse_paragraph_end_go_char (gb : Buf) :
    ∀ (f p : Nat), p ≤ gb.length → gb.length - p ≤ f →
      parse_paragraph_end_go gb f p = gb.length ∨
        gap_at gb (parse_paragraph_end_go gb f p) = 10
  | 0, p, hp, hf => by
      simp only [parse_paragraph_end_go]
      omega
  | f + 1, p, hp, hf => by
      simp only [parse_paragraph_end_go]
      by_cases h1 : p < gb.length
      · rw [if_pos h1]
        by_cases h2 : gap_at gb p = 10 ∧ p + 1 < gb.length ∧ gap_at gb (p + 1) = 10
        · rw [if_pos h2]
          exact Or.inr h2.2.2
        · rw [if_neg h2]
          by_cases h3 : gap_at gb p = 10 ∧ p + 1 < gb.length ∧
              is_block_start gb (p + 1) = true
          · rw [if_pos h3]
            exact Or.inr h3.1
          · rw [if_neg h3]
            exact parse_paragraph_end_go_char gb f (p + 1) (by omega) (by omega)
      · rw [if_neg h1]
        omega

theorem parse_paragraph_end_char (gb : Buf) (pos : Nat) (h : pos ≤ gb.length) :
    parse_paragraph_end gb pos = gb.length ∨
      (0 < parse_paragraph_end gb pos ∧
        gap_at gb (parse_paragraph_end gb pos - 1) = 10) := by
  have hc := parse_paragraph_end_go_char gb (gb.length - pos) pos h (Nat.le_refl _)
  have hb := parse_paragraph_end_go_bounds gb (gb.length - pos) pos h
  simp only [parse_paragraph_end]
  by_cases h1 : parse_paragraph_end_go gb (gb.length - pos) pos < gb.length ∧
      gap_at gb (parse_paragraph_end_go gb (gb.length - pos) pos) = 10
  · rw [if_pos h1]
    refine Or.inr ⟨by omega, ?_⟩
    simpa using h1.2
  · rw [if_neg h1]
    rcases hc with hc | hc
    · exact Or.inl hc
    · have : ¬ parse_paragraph_end_go gb (gb.length - pos) pos < gb.length := by
        intro hlt
        exact h1 ⟨hlt, hc⟩
      omega

/-- The five delimiter descriptors `md_check_delim` can return. -/
def delim_pairs : List (Nat × Nat) := [(1, 2), (2, 1), (4, 1), (8, 2), (16, 2)]

/-- Bytes that form inline style delimiters: `*`, `_`, backtick, `~`, `=`. -/
def delim_byte (b : Nat) : Prop :=
  b = 42 ∨ b = 95 ∨ b = 96 ∨ b = 126 ∨ b = 61

/-- Bytes the inline pre-pass may leave uncovered by runs: newlines and
style delimiter bytes. -/
def run_gap_byte (b : Nat) : Prop := b = 10 ∨ delim_byte b

theorem md_check_link_nonl (gb : Buf) (pos ts tl us ul total : Nat)
    (h : md_check_link gb pos = some (ts, tl, us, ul, total)) :
    0 < total ∧ pos + total ≤ gb.length ∧
      ∀ k, pos ≤ k → k < pos + total → gap_at gb k ≠ 10 := by
  simp only [md_check_link] at h
  by_cases h1 : gap_at gb pos = 91
  · rw [if_pos h1] at h
    rcases hbr : find_close_bracket_go gb (gb.length - (pos + 1)) (pos + 1) 0
      with _ | close
    · rw [hbr] at h
      cases h
    · rw [hbr] at h
      dsimp only at h
      by_cases h2 : gap_at gb (close + 1) = 40
      · rw [if_pos h2] at h
        rcases hpr : find_close_paren_go gb (gb.length - (close + 2)) (close + 2)
          with _ | rp
        · rw [hpr] at h
          cases h
        · rw [hpr] at h
          dsimp only at h
          simp only [Option.some.injEq, Prod.mk.injEq] at h
          obtain ⟨-, -, -, -, h5⟩ := h
          subst h5
          have hb := find_close_bracket_go_spec gb _ _ _ _ hbr
          have hbn := find_close_bracket_go_nonl gb _ _ _ _ hbr
          have hp := find_close_paren_go_spec gb _ _ _ hpr
          have hpn := find_close_paren_go_nonl gb _ _ _ hpr
          refine ⟨by omega, by omega, ?_⟩
          intro k hk1 hk2
          by_cases hk3 : k = pos
          · rw [hk3, h1]
            omega
          · by_cases hk4 : k ≤ close
            · by_cases hk5 : k = close
              · rw [hk5, hb.2.2]
                omega
              · exact hbn k (by omega) (by omega)
            · by_cases hk6 : k = close + 1
              · rw [hk6, h2]
                omega
              · by_cases hk7 : k = rp
                · rw [hk7, hp.2.2]
                  omega
                · exact hpn k (by omega) (by omega)
      · rw [if_neg h2] at h
        cases h
  · rw [if_neg h1] at h
    cases h

theorem md_check_footnote_ref_nonl (gb : Buf) (pos ids idl total : Nat)
    (h : md_check_footnote_ref gb pos = some (ids, idl, total)) :
    0 < total ∧ pos + total ≤ gb.length ∧
      ∀ k, pos ≤ k → k < pos + total → gap_at gb k ≠ 10 := by
  simp only [md_check_footnote_ref] at h
  by_cases h1 : gap_at gb pos = 91 ∧ gap_at gb (pos + 1) = 94
  · rw [if_pos h1] at h
    by_cases h2 : 0 < count_fn_id gb (pos + 2) ∧
        gap_at gb (pos + 2 + count_fn_id gb (pos + 2)) = 93
    · rw [if_pos h2] at h
      simp only [Option.some.injEq, Prod.mk.injEq] at h
      obtain ⟨-, -, h5⟩ := h
      subst h5
      have hcount : count_fn_id gb (pos + 2) =
          count_fn_id_go gb (gb.length - (pos + 2)) (pos + 2) := rfl
      have hlt := gap_at_lt_length gb (pos + 2 + count_fn_id gb (pos + 2))
        (by rw [h2.2]; omega)
      refine ⟨by omega, by omega, ?_⟩
      intro k hk1 hk2
      by_cases hk3 : k = pos
      · rw [hk3, h1.1]
        omega
      · by_cases hk4 : k = pos + 1
        · rw [hk4, h1.2]
          omega
        · by_cases hk5 : k = pos + 2 + count_fn_id gb (pos + 2)
          · rw [hk5, h2.2]
            omega
          · have hj : k - (pos + 2) < count_fn_id_go gb (gb.length - (pos + 2))
                (pos + 2) := by omega
            have hcf := count_fn_id_go_facts gb (gb.length - (pos + 2)) (pos + 2)
              (k - (pos + 2)) hj
            have hidx : pos + 2 + (k - (pos + 2)) = k := by omega
            rw [hidx] at hcf
            exact hcf.2
    · rw [if_neg h2] at h
      cases h
  · rw [if_neg h1] at h
    cases h

theorem md_check_inline_math_nonl (gb : Buf) (pos cs cl total : Nat)
    (h : md_check_inline_math gb pos = some (cs, cl, total)) :
    0 < total ∧ pos + total ≤ gb.length ∧
      ∀ k, pos ≤ k → k < pos + total → gap_at gb k ≠ 10 := by
  simp only [md_check_inline_math] at h
  by_cases h1 : gap_at gb pos = 36 ∧ (pos = 0 ∨ gap_at gb (pos - 1) ≠ 92) ∧
      gap_at gb (pos + 1) ≠ 36
  · rw [if_pos h1] at h
    rcases hd : find_dollar_close_go gb (gb.length - (pos + 1)) (pos + 1)
      with _ | q
    · rw [hd] at h
      cases h
    · rw [hd] at h
      dsimp only at h
      simp only [Option.some.injEq, Prod.mk.injEq] at h
      obtain ⟨-, -, h5⟩ := h
      subst h5
      have hq := find_dollar_close_go_spec gb _ _ _ hd
      refine ⟨by omega, by omega, ?_⟩
      intro k hk1 hk2
      by_cases hk3 : k = pos
      · rw [hk3, h1.1]
        omega
      · by_cases hk4 : k = q
        · rw [hk4, hq.2.2.1]
          omega
        · exact hq.2.2.2 k (by omega) (by omega)
  · rw [if_neg h1] at h
    cases h

theorem md_check_emoji_nonl (gb : Buf) (pos : Nat) (glyph : List Nat)
    (ss sl total : Nat)
    (h : md_check_emoji gb pos = some (glyph, ss, sl, total)) :
    0 < total ∧ pos + total ≤ gb.length ∧
      ∀ k, pos ≤ k → k < pos + total → gap_at gb k ≠ 10 := by
  simp only [md_check_emoji] at h
  by_cases h1 : gap_at gb pos = 58
  · rw [if_pos h1] at h
    rcases he : emoji_find gb (pos + 1) emoji_table with _ | ⟨g2, nlen⟩
    · rw [he] at h
      cases h
    · rw [he] at h
      dsimp only at h
      simp only [Option.some.injEq, Prod.mk.injEq] at h
      obtain ⟨-, -, -, h5⟩ := h
      subst h5
      obtain ⟨name, hmem, hlen, hbm⟩ :=
        emoji_find_spec gb (pos + 1) emoji_table g2 nlen he
      have hbs := bytes_match_at_spec gb (name ++ [58]) (pos + 1) hbm
      have hlast : gap_at gb (pos + 1 + nlen) = 58 := by
        have h6 := hbs name.length
          (by simp only [List.length_append, List.length_singleton]; omega)
        rw [getD_append_last_any] at h6
        rw [← hlen]
        exact h6
      have htab : ∀ e ∈ emoji_table, ∀ b ∈ e.1, b ≠ 10 ∧ b ≠ 0 := by decide
      have hlt : pos + 1 + nlen < gb.length :=
        gap_at_lt_length gb (pos + 1 + nlen) (by rw [hlast]; omega)
      refine ⟨by omega, by omega, ?_⟩
      intro k hk1 hk2
      by_cases hk3 : k = pos
      · rw [hk3, h1]
        omega
      · by_cases hk4 : k = pos + 1 + nlen
        · rw [hk4, hlast]
          omega
        · have hj : k - (pos + 1) < name.length := by omega
          have hbyte := hbs (k - (pos + 1))
            (by simp only [List.length_append, List.length_singleton]; omega)
          rw [getD_append_left_any name [58] _ hj] at hbyte
          have hidx : pos + 1 + (k - (pos + 1)) = k := by omega
          rw [hidx] at hbyte
          have hbmem := getD_mem_any name (k - (pos + 1)) hj 0
          rw [hbyte]
          exact (htab (name, g2) hmem (name.getD (k - (pos + 1)) 0) hbmem).1
  · rw [if_neg h1] at h
    cases h

theorem md_check_delim_bytes (gb : Buf) (pos d dl : Nat)
    (h : md_check_delim gb pos = some (d, dl)) :
    (d, dl) ∈ delim_pairs ∧ 0 < dl ∧ pos + dl ≤ gb.length ∧
      ∀ j, j < dl → delim_byte (gap_at gb (pos + j)) := by
  simp only [md_check_delim] at h
  by_cases h1 : gap_at gb pos = 42
  · rw [if_pos h1] at h
    by_cases h2 : gap_at gb (pos + 1) = 42
    · rw [if_pos h2] at h
      simp only [Option.some.injEq, Prod.mk.injEq] at h
      obtain ⟨hd, hl⟩ := h
      subst hd
      subst hl
      have hlt := gap_at_lt_length gb (pos + 1) (by rw [h2]; omega)
      refine ⟨by simp [delim_pairs], by omega, by omega, ?_⟩
      intro j hj
      interval_cases j
      · rw [Nat.add_zero]
        exact Or.inl h1
      · exact Or.inl h2
    · rw [if_neg h2] at h
      simp only [Option.some.injEq, Prod.mk.injEq] at h
      obtain ⟨hd, hl⟩ := h
      subst hd
      subst hl
      have hlt := gap_at_lt_length gb pos (by rw [h1]; omega)
      refine ⟨by simp [delim_pairs], by omega, by omega, ?_⟩
      intro j hj
      interval_cases j
      rw [Nat.add_zero]
      exact Or.inl h1
  · rw [if_neg h1] at h
    by_cases h2 : gap_at gb pos = 95
    · rw [if_pos h2] at h
      simp only [Option.some.injEq, Prod.mk.injEq] at h
      obtain ⟨hd, hl⟩ := h
      subst hd
      subst hl
      have hlt := gap_at_lt_length gb pos (by rw [h2]; omega)
      refine ⟨by simp [delim_pairs], by omega, by omega, ?_⟩
      intro j hj
      interval_cases j
      rw [Nat.add_zero]
      exact Or.inr (Or.inl h2)
    · rw [if_neg h2] at h
      by_cases h3 : gap_at gb pos = 96
      · rw [if_pos h3] at h
        simp only [Option.some.injEq, Prod.mk.injEq] at h
        obtain ⟨hd, hl⟩ := h
        subst hd
        subst hl
        have hlt := gap_at_lt_length gb pos (by rw [h3]; omega)
        refine ⟨by simp [delim_pairs], by omega, by omega, ?_⟩
        intro j hj
        interval_cases j
        rw [Nat.add_zero]
        exact Or.inr (Or.inr (Or.inl h3))
      · rw [if_neg h3] at h
        by_cases h4 : gap_at gb pos = 126 ∧ gap_at gb (pos + 1) = 126
        · rw [if_pos h4] at h
          simp only [Option.some.injEq, Prod.mk.injEq] at h
          obtain ⟨hd, hl⟩ := h
          subst hd
          subst hl
          have hlt := gap_at_lt_length gb (pos + 1) (by rw [h4.2]; omega)
          refine ⟨by simp [delim_pairs], by omega, by omega, ?_⟩
          intro j hj
          interval_cases j
          · rw [Nat.add_zero]
            exact Or.inr (Or.inr (Or.inr (Or.inl h4.1)))
          · exact Or.inr (Or.inr (Or.inr (Or.inl h4.2)))
        · rw [if_neg h4] at h
          by_cases h5 : gap_at gb pos = 61 ∧ gap_at gb (pos + 1) = 61
          · rw [if_pos h5] at h
            simp only [Option.some.injEq, Prod.mk.injEq] at h
            obtain ⟨hd, hl⟩ := h
            subst hd
            subst hl
            have hlt := gap_at_lt_length gb (pos + 1) (by rw [h5.2]; omega)
            refine ⟨by simp [delim_pairs], by omega, by omega, ?_⟩
            intro j hj
            interval_cases j
            · rw [Nat.add_zero]
              exact Or.inr (Or.inr (Or.inr (Or.inr h5.1)))
            · exact Or.inr (Or.inr (Or.inr (Or.inr h5.2)))
          · rw [if_neg h5] at h
            cases h

theorem span_le_endp (gb : Buf) (endp pos total : Nat)
    (hend : endp = gb.length ∨
      (endp ≤ gb.length ∧ 0 < endp ∧ gap_at gb (endp - 1) = 10))
    (hpos : pos < endp) (hlen : pos + total ≤ gb.length)
    (hnonl : ∀ k, pos ≤ k → k < pos + total → gap_at gb k ≠ 10) :
    pos + total ≤ endp := by
  rcases hend with h | ⟨h1, h2, h3⟩
  · omega
  · by_contra hc
    push_neg at hc
    exact hnonl (endp - 1) (by omega) (by omega) h3

theorem stack_pop_find_none (stack : List (Nat × Nat)) (d l : Nat)
    (h : stack_pop_find stack d l = none) : (d, l) ∉ stack := by
  simp only [stack_pop_find, List.findIdx?_eq_none_iff] at h
  intro hm
  have h2 := h _ hm
  simp at h2

theorem stack_length_le (stack : List (Nat × Nat)) (hnd : stack.Nodup)
    (hmem : ∀ e ∈ stack, e ∈ delim_pairs) : stack.length ≤ 5 := by
  have h := (List.subperm_of_subset hnd (fun e he => hmem e he)).length_le
  simpa [delim_pairs] using h

/-- Default inline run for indexed access. -/
def dummy_run : InlineRun := ⟨0, 0, 0, RunData.text⟩

/-- Runs are listed in order: each run ends no later than the next starts. -/
def runs_chain (runs : List InlineRun) : Prop :=
  ∀ i, i + 1 < runs.length →
    (runs.getD i dummy_run).byte_end ≤ (runs.getD (i + 1) dummy_run).byte_start

/-- Every byte of `[start, stop)` is covered by a run or is a newline or
style delimiter byte. -/
def runs_cover (gb : Buf) (runs : List InlineRun) (start stop : Nat) : Prop :=
  ∀ p, start ≤ p → p < stop →
    (∃ r ∈ runs, r.byte_start ≤ p ∧ p < r.byte_end) ∨ run_gap_byte (gap_at gb p)

/-- Invariant of the inline scanner state over the range `[start, endp)`:
positions are ordered and bounded, emitted runs are well-formed, ordered and
cover `[start, run_start)` up to gap bytes, and the style stack holds
distinct delimiter descriptors. -/
structure ScanInv (gb : Buf) (start endp : Nat) (st : ScanState) : Prop where
  hrle : st.run_start ≤ st.pos
  hsle : start ≤ st.run_start
  hple : st.pos ≤ endp
  hbound : ∀ r ∈ st.runs, start ≤ r.byte_start ∧ r.byte_start < r.byte_end ∧
    r.byte_end ≤ st.run_start
  hord : runs_chain st.runs
  hcov : runs_cover gb st.runs start st.run_start
  hnodup : st.stack.Nodup
  hmem : ∀ e ∈ st.stack, e ∈ delim_pairs

theorem runs_chain_append (runs : List InlineRun) (r : InlineRun)
    (hc : runs_chain runs) (hb : ∀ x ∈ runs, x.byte_end ≤ r.byte_start) :
    runs_chain (runs ++ [r]) := by
  intro i hi
  rw [List.length_append, List.length_singleton] at hi
  by_cases h1 : i + 1 < runs.length
  · rw [getD_append_left_any _ _ _ (by omega), getD_append_left_any _ _ _ h1]
    exact hc i h1
  · have h2 : i + 1 = runs.length := by omega
    rw [getD_append_left_any _ _ _ (by omega)]
    rw [h2, getD_append_last_any]
    exact hb _ (getD_mem_any runs i (by omega) dummy_run)

theorem runs_cover_sub (gb : Buf) (runs runs2 : List InlineRun)
    (start stop : Nat) (h : runs_cover gb runs start stop)
    (hsub : ∀ r ∈ runs, r ∈ runs2) : runs_cover gb runs2 start stop := by
  intro p h1 h2
  rcases h p h1 h2 with ⟨r, hr, hc⟩ | hg
  · exact Or.inl ⟨r, hsub r hr, hc⟩
  · exact Or.inr hg

theorem runs_cover_extend (gb : Buf) (runs : List InlineRun) (r : InlineRun)
    (start : Nat) (h : runs_cover gb runs start r.byte_start) :
    runs_cover gb (runs ++ [r]) start r.byte_end := by
  intro p h1 h2
  by_cases hp : p < r.byte_start
  · exact runs_cover_sub gb runs _ start _ h
      (fun x hx => List.mem_append_left _ hx) p h1 hp
  · exact Or.inl ⟨r, List.mem_append_right _ (List.mem_singleton_self r),
      by omega, h2⟩

theorem runs_cover_gaps (gb : Buf) (runs : List InlineRun) (start a b : Nat)
    (h : runs_cover gb runs start a)
    (hg : ∀ p, a ≤ p → p < b → run_gap_byte (gap_at gb p)) :
    runs_cover gb runs start b := by
  intro p h1 h2
  by_cases hp : p < a
  · exact h p h1 hp
  · exact Or.inr (hg p (by omega) h2)

theorem emit_text_run_inv (gb : Buf) (start endp : Nat) (st : ScanState)
    (inv : ScanInv gb start endp st) :
    (∀ r ∈ emit_text_run st, start ≤ r.byte_start ∧ r.byte_start < r.byte_end ∧
      r.byte_end ≤ st.pos) ∧
    runs_chain (emit_text_run st) ∧
    runs_cover gb (emit_text_run st) start st.pos := by
  unfold emit_text_run
  by_cases h : st.run_start < st.pos
  · rw [if_pos h]
    refine ⟨?_, ?_, ?_⟩
    · intro r hr
      rcases List.mem_append.mp hr with hr1 | hr2
      · have hb := inv.hbound r hr1
        exact ⟨hb.1, hb.2.1, by have := inv.hrle; omega⟩
      · rw [List.mem_singleton.mp hr2]
        exact ⟨inv.hsle, h, Nat.le_refl _⟩
    · exact runs_chain_append _ _ inv.hord (fun x hx => (inv.hbound x hx).2.2)
    · exact runs_cover_extend gb st.runs
        ⟨st.run_start, st.pos, st.run_style, RunData.text⟩ start inv.hcov
  · rw [if_neg h]
    have heq : st.run_start = st.pos := by have := inv.hrle; omega
    refine ⟨?_, inv.hord, ?_⟩
    · intro r hr
      have hb := inv.hbound r hr
      exact ⟨hb.1, hb.2.1, by omega⟩
    · rw [← heq]
      exact inv.hcov

theorem scan_inv_typed (gb : Buf) (start endp : Nat) (st : ScanState)
    (inv : ScanInv gb start endp st) (total sty : Nat) (data : RunData)
    (hts : 0 < total) (hle : st.pos + total ≤ endp) :
    ScanInv gb start endp
      ⟨st.pos + total, st.pos + total, st.stack, st.active_style,
        st.active_style,
        emit_text_run st ++ [⟨st.pos, st.pos + total, sty, data⟩]⟩ := by
  obtain ⟨he1, he2, he3⟩ := emit_text_run_inv gb start endp st inv
  refine ⟨Nat.le_refl _,
    by dsimp only; have h1 := inv.hsle; have h2 := inv.hrle; omega,
    hle, ?_, ?_, ?_, inv.hnodup, inv.hmem⟩
  · intro r hr
    rcases List.mem_append.mp hr with hr1 | hr2
    · have hb := he1 r hr1
      exact ⟨hb.1, hb.2.1, by dsimp only; omega⟩
    · rw [List.mem_singleton.mp hr2]
      exact ⟨by dsimp only; have h1 := inv.hsle; have h2 := inv.hrle; omega,
        by dsimp only; omega, Nat.le_refl _⟩
  · exact runs_chain_append _ _ he2 (fun x hx => (he1 x hx).2.2)
  · exact runs_cover_extend gb (emit_text_run st)
      ⟨st.pos, st.pos + total, sty, data⟩ start he3

theorem scan_inv_skip (gb : Buf) (start endp : Nat) (st : ScanState)
    (inv : ScanInv gb start endp st) (stk : List (Nat × Nat)) (a1 a2 k : Nat)
    (hk : 0 < k) (hle : st.pos + k ≤ endp)
    (hgap : ∀ j, j < k → run_gap_byte (gap_at gb (st.pos + j)))
    (hnd : stk.Nodup) (hm : ∀ e ∈ stk, e ∈ delim_pairs) :
    ScanInv gb start endp
      ⟨st.pos + k, st.pos + k, stk, a1, a2, emit_text_run st⟩ := by
  obtain ⟨he1, he2, he3⟩ := emit_text_run_inv gb start endp st inv
  refine ⟨Nat.le_refl _,
    by dsimp only; have h1 := inv.hsle; have h2 := inv.hrle; omega,
    hle,
    fun r hr => ⟨(he1 r hr).1, (he1 r hr).2.1,
      by dsimp only; have := (he1 r hr).2.2; omega⟩,
    he2, ?_, hnd, hm⟩
  refine runs_cover_gaps gb _ start st.pos (st.pos + k) he3 ?_
  intro p h1 h2
  have hg := hgap (p - st.pos) (by omega)
  have hidx : st.pos + (p - st.pos) = p := by omega
  rw [hidx] at hg
  exact hg

theorem scan_inv_step (gb : Buf) (start endp : Nat) (st : ScanState)
    (inv : ScanInv gb start endp st) (hle : st.pos + 1 ≤ endp) :
    ScanInv gb start endp { st with pos := st.pos + 1 } :=
  ⟨by dsimp only; have := inv.hrle; omega, inv.hsle, hle, inv.hbound,
    inv.hord, inv.hcov, inv.hnodup, inv.hmem⟩

theorem inline_runs_go_inv (gb : Buf) (start endp : Nat)
    (hend : endp = gb.length ∨
      (endp ≤ gb.length ∧ 0 < endp ∧ gap_at gb (endp - 1) = 10)) :
    ∀ (f : Nat) (st : ScanState), ScanInv gb start endp st →
      endp - st.pos ≤ f →
      ScanInv gb start endp (inline_runs_go gb endp f st) ∧
        (inline_runs_go gb endp f st).pos = endp
  | 0, st, inv, hf => by
      simp only [inline_runs_go]
      exact ⟨inv, by have := inv.hple; omega⟩
  | f + 1, st, inv, hf => by
      by_cases hpos : st.pos < endp
      · simp only [inline_runs_go]
        rw [if_pos hpos]
        by_cases hnl : gap_at gb st.pos = 10
        · rw [if_pos hnl]
          exact inline_runs_go_inv gb start endp hend f _
            (scan_inv_skip gb start endp st inv st.stack st.active_style
              st.active_style 1 (by omega) (by omega)
              (fun j hj => by
                have hj0 : j = 0 := by omega
                rw [hj0, Nat.add_zero]
                exact Or.inl hnl)
              inv.hnodup inv.hmem)
            (by dsimp only; omega)
        · rw [if_neg hnl]
          rcases hlink : md_check_link gb st.pos with _ | ⟨ts, tl, us, ul, total⟩
          on_goal 2 =>
            dsimp only
            have hn := md_check_link_nonl gb st.pos ts tl us ul total hlink
            have ht := hn.1
            have hle : st.pos + total ≤ endp :=
              span_le_endp gb endp st.pos total hend hpos hn.2.1 hn.2.2
            exact inline_runs_go_inv gb start endp hend f _
              (scan_inv_typed gb start endp st inv total st.active_style
                (RunData.link us ul) hn.1 hle)
              (by dsimp only; omega)
          dsimp only
          rcases hfn : md_check_footnote_ref gb st.pos with _ | ⟨ids, idl, total⟩
          on_goal 2 =>
            dsimp only
            have hn := md_check_footnote_ref_nonl gb st.pos ids idl total hfn
            have ht := hn.1
            have hle : st.pos + total ≤ endp :=
              span_le_endp gb endp st.pos total hend hpos hn.2.1 hn.2.2
            exact inline_runs_go_inv gb start endp hend f _
              (scan_inv_typed gb start endp st inv total st.active_style
                (RunData.footnoteRef ids idl) hn.1 hle)
              (by dsimp only; omega)
          dsimp only
          rcases hmath : md_check_inline_math gb st.pos with _ | ⟨cs, cl, total⟩
          on_goal 2 =>
            dsimp only
            have hn := md_check_inline_math_nonl gb st.pos cs cl total hmath
            have ht := hn.1
            have hle : st.pos + total ≤ endp :=
              span_le_endp gb endp st.pos total hend hpos hn.2.1 hn.2.2
            exact inline_runs_go_inv gb start endp hend f _
              (scan_inv_typed gb start endp st inv total st.active_style
                (RunData.inlineMath cs cl) hn.1 hle)
              (by dsimp only; omega)
          dsimp only
          rcases hem : md_check_emoji gb st.pos with _ | ⟨glyph, ss, sl, total⟩
          on_goal 2 =>
            dsimp only
            have hn := md_check_emoji_nonl gb st.pos glyph ss sl total hem
            have ht := hn.1
            have hle : st.pos + total ≤ endp :=
              span_le_endp gb endp st.pos total hend hpos hn.2.1 hn.2.2
            exact inline_runs_go_inv gb start endp hend f _
              (scan_inv_typed gb start endp st inv total st.active_style
                (RunData.emoji glyph) hn.1 hle)
              (by dsimp only; omega)
          dsimp only
          rcases hdelim : md_check_delim gb st.pos with _ | ⟨d, dl⟩
          ·
            dsimp only
            exact inline_runs_go_inv gb start endp hend f _
              (scan_inv_step gb start endp st inv (by omega))
              (by dsimp only; omega)
          ·
            dsimp only
            have hdb := md_check_delim_bytes gb st.pos d dl hdelim
            rw [if_pos hdb.2.1]
            have hgap : ∀ j, j < dl → run_gap_byte (gap_at gb (st.pos + j)) :=
              fun j hj => Or.inr (hdb.2.2.2 j hj)
            have hnonl : ∀ k, st.pos ≤ k → k < st.pos + dl →
                gap_at gb k ≠ 10 := by
              intro k hk1 hk2
              have hg := hdb.2.2.2 (k - st.pos) (by omega)
              have hidx : st.pos + (k - st.pos) = k := by omega
              rw [hidx] at hg
              simp only [delim_byte] at hg
              omega
            have hle : st.pos + dl ≤ endp :=
              span_le_endp gb endp st.pos dl hend hpos hdb.2.2.1 hnonl
            rcases hpop : stack_pop_find st.stack d dl with _ | k2
            ·
              dsimp only
              have hdepth : st.stack.length < 8 := by
                have := stack_length_le st.stack inv.hnodup inv.hmem
                omega
              rw [if_pos hdepth]
              have hnotin := stack_pop_find_none st.stack d dl hpop
              exact inline_runs_go_inv gb start endp hend f _
                (scan_inv_skip gb start endp st inv ((d, dl) :: st.stack)
                  (md_style_add st.active_style d)
                  (md_style_add st.active_style d)
                  dl hdb.2.1 hle hgap
                  (List.Nodup.cons hnotin inv.hnodup)
                  (fun e he => by
                    rcases List.mem_cons.mp he with he1 | he2
                    · rw [he1]
                      exact hdb.1
                    · exact inv.hmem e he2))
                (by dsimp only; have ht := hdb.2.1; omega)
            ·
              dsimp only
              exact inline_runs_go_inv gb start endp hend f _
                (scan_inv_skip gb start endp st inv (st.stack.drop (k2 + 1))
                  (md_style_remove st.active_style d)
                  (md_style_remove st.active_style d)
                  dl hdb.2.1 hle hgap
                  ((List.drop_sublist (k2 + 1) st.stack).nodup inv.hnodup)
                  (fun e he => inv.hmem e (List.mem_of_mem_drop he)))
                (by dsimp only; have ht := hdb.2.1; omega)
      · simp only [inline_runs_go]
        rw [if_neg hpos]
        exact ⟨inv, by have := inv.hple; omega⟩

theorem block_parse_inline_runs_spec (gb : Buf) (start endp : Nat)
    (hse : start ≤ endp)
    (hend : endp = gb.length ∨
      (endp ≤ gb.length ∧ 0 < endp ∧ gap_at gb (endp - 1) = 10)) :
    (∀ r ∈ block_parse_inline_runs gb start endp,
      start ≤ r.byte_start ∧ r.byte_start < r.byte_end ∧ r.byte_end ≤ endp) ∧
    runs_chain (block_parse_inline_runs gb start endp) ∧
    runs_cover gb (block_parse_inline_runs gb start endp) start endp := by
  have inv0 : ScanInv gb start endp ⟨start, start, [], 0, 0, []⟩ := by
    refine ⟨Nat.le_refl _, Nat.le_refl _, hse, ?_, ?_, ?_, List.nodup_nil, ?_⟩
    · intro r hr
      simp at hr
    · intro i hi
      simp at hi
    · intro p h1 h2
      dsimp only at h2
      exact absurd h2 (Nat.not_lt.mpr h1)
    · intro e he
      simp at he
  obtain ⟨inv1, hpos1⟩ := inline_runs_go_inv gb start endp hend (endp - start)
    ⟨start, start, [], 0, 0, []⟩ inv0 (by dsimp only; omega)
  obtain ⟨he1, he2, he3⟩ := emit_text_run_inv gb start endp _ inv1
  unfold block_parse_inline_runs
  rw [hpos1] at he1 he3
  exact ⟨he1, he2, he3⟩

theorem try_parse_image_data (gb : Buf) (pos : Nat) (r : BlockData × Nat)
    (h : try_parse_image gb pos = some r) :
    ∀ rs, r.1 ≠ BlockData.paragraph rs := by
  simp only [try_parse_image] at h
  repeat' split at h
  all_goals try cases h
  all_goals intro rs hc
  all_goals simp at hc

theorem try_parse_code_block_data (gb : Buf) (pos : Nat) (r : BlockData × Nat)
    (h : try_parse_code_block gb pos = some r) :
    ∀ rs, r.1 ≠ BlockData.paragraph rs := by
  simp only [try_parse_code_block] at h
  repeat' split at h
  all_goals try cases h
  all_goals intro rs hc
  all_goals simp at hc

theorem try_parse_block_math_data (gb : Buf) (pos : Nat) (r : BlockData × Nat)
    (h : try_parse_block_math gb pos = some r) :
    ∀ rs, r.1 ≠ BlockData.paragraph rs := by
  simp only [try_parse_block_math] at h
  repeat' split at h
  all_goals try cases h
  all_goals intro rs hc
  all_goals simp at hc

theorem try_parse_table_data (gb : Buf) (pos : Nat) (r : BlockData × Nat)
    (h : try_parse_table gb pos = some r) :
    ∀ rs, r.1 ≠ BlockData.paragraph rs := by
  simp only [try_parse_table] at h
  repeat' split at h
  all_goals try cases h
  all_goals intro rs hc
  all_goals simp at hc

theorem try_parse_hr_data (gb : Buf) (pos : Nat) (r : BlockData × Nat)
    (h : try_parse_hr gb pos = some r) :
    ∀ rs, r.1 ≠ BlockData.paragraph rs := by
  simp only [try_parse_hr] at h
  repeat' split at h
  all_goals try cases h
  all_goals intro rs hc
  all_goals simp at hc

theorem try_parse_header_data (gb : Buf) (pos : Nat) (r : BlockData × Nat)
    (h : try_parse_header gb pos = some r) :
    ∀ rs, r.1 ≠ BlockData.paragraph rs := by
  simp only [try_parse_header] at h
  repeat' split at h
  all_goals try cases h
  all_goals intro rs hc
  all_goals simp at hc

theorem try_parse_footnote_def_data (gb : Buf) (pos : Nat) (r : BlockData × Nat)
    (h : try_parse_footnote_def gb pos = some r) :
    ∀ rs, r.1 ≠ BlockData.paragraph rs := by
  simp only [try_parse_footnote_def] at h
  repeat' split at h
  all_goals try cases h
  all_goals intro rs hc
  all_goals simp at hc

theorem try_parse_blockquote_data (gb : Buf) (pos : Nat) (r : BlockData × Nat)
    (h : try_parse_blockquote gb pos = some r) :
    ∀ rs, r.1 ≠ BlockData.paragraph rs := by
  simp only [try_parse_blockquote] at h
  repeat' split at h
  all_goals try cases h
  all_goals intro rs hc
  all_goals simp at hc

theorem try_parse_list_item_data (gb : Buf) (pos : Nat) (r : BlockData × Nat)
    (h : try_parse_list_item gb pos = some r) :
    ∀ rs, r.1 ≠ BlockData.paragraph rs := by
  simp only [try_parse_list_item] at h
  repeat' split at h
  all_goals try cases h
  all_goals intro rs hc
  all_goals simp at hc

theorem parse_block_at_paragraph (gb : Buf) (pos : Nat) (runs : List InlineRun)
    (h : (parse_block_at gb pos).1 = BlockData.paragraph runs) :
    (parse_block_at gb pos).2 = parse_paragraph_end gb pos ∧
      runs = block_parse_inline_runs gb pos (parse_paragraph_end gb pos) := by
  unfold parse_block_at at h ⊢
  rcases h1 : try_parse_image gb pos with _ | r1
  on_goal 2 =>
    rw [h1] at h
    dsimp only at h
    exact absurd h (try_parse_image_data gb pos r1 h1 runs)
  rw [h1] at h
  dsimp only at h ⊢
  rcases h2 : try_parse_code_block gb pos with _ | r2
  on_goal 2 =>
    rw [h2] at h
    dsimp only at h
    exact absurd h (try_parse_code_block_data gb pos r2 h2 runs)
  rw [h2] at h
  dsimp only at h ⊢
  rcases h3 : try_parse_block_math gb pos with _ | r3
  on_goal 2 =>
    rw [h3] at h
    dsimp only at h
    exact absurd h (try_parse_block_math_data gb pos r3 h3 runs)
  rw [h3] at h
  dsimp only at h ⊢
  rcases h4 : try_parse_table gb pos with _ | r4
  on_goal 2 =>
    rw [h4] at h
    dsimp only at h
    exact absurd h (try_parse_table_data gb pos r4 h4 runs)
  rw [h4] at h
  dsimp only at h ⊢
  rcases h5 : try_parse_hr gb pos with _ | r5
  on_goal 2 =>
    rw [h5] at h
    dsimp only at h
    exact absurd h (try_parse_hr_data gb pos r5 h5 runs)
  rw [h5] at h
  dsimp only at h ⊢
  rcases h6 : try_parse_header gb pos with _ | r6
  on_goal 2 =>
    rw [h6] at h
    dsimp only at h
    exact absurd h (try_parse_header_data gb pos r6 h6 runs)
  rw [h6] at h
  dsimp only at h ⊢
  rcases h7 : try_parse_footnote_def gb pos with _ | r7
  on_goal 2 =>
    rw [h7] at h
    dsimp only at h
    exact absurd h (try_parse_footnote_def_data gb pos r7 h7 runs)
  rw [h7] at h
  dsimp only at h ⊢
  rcases h8 : try_parse_blockquote gb pos with _ | r8
  on_goal 2 =>
    rw [h8] at h
    dsimp only at h
    exact absurd h (try_parse_blockquote_data gb pos r8 h8 runs)
  rw [h8] at h
  dsimp only at h ⊢
  rcases h9 : try_parse_list_item gb pos with _ | r9
  on_goal 2 =>
    rw [h9] at h
    dsimp only at h
    exact absurd h (try_parse_list_item_data gb pos r9 h9 runs)
  rw [h9] at h
  dsimp only at h ⊢
  injection h with h10
  exact ⟨rfl, h10.symm⟩

theorem block_cache_parse_go_paragraph (ext : Externals) (gb : Buf)
    (w hgt : Nat) :
    ∀ (f pos vrow : Nat) (b : Block),
      b ∈ block_cache_parse_go ext gb w hgt f pos vrow →
      ∀ runs, b.data = BlockData.paragraph runs →
        b.start < gb.length ∧ b.stop = parse_paragraph_end gb b.start ∧
          runs = block_parse_inline_runs gb b.start b.stop
  | 0, pos, vrow, b, hb, runs, hd => by
      simp [block_cache_parse_go] at hb
  | f + 1, pos, vrow, b, hb, runs, hd => by
      simp only [block_cache_parse_go] at hb
      by_cases h1 : pos < gb.length
      · rw [if_pos h1] at hb
        rcases List.mem_cons.mp hb with hb1 | hb2
        · subst hb1
          dsimp only at hd ⊢
          have hp := parse_block_at_paragraph gb pos runs hd
          exact ⟨h1, hp.1, by rw [hp.1]; exact hp.2⟩
        · exact block_cache_parse_go_paragraph ext gb w hgt f _ _ b hb2 runs hd
      · rw [if_neg h1] at hb
        simp at hb

/-- C8 (amended): for every paragraph block produced by the parser, the
inline runs are ordered, pairwise disjoint and contained in
`[block.start, block.stop)`, and every byte of the block not covered by a
run is a newline or a style delimiter byte (`*`, `_`, backtick, `~`, `=`) —
the runs need not start at `block.start` nor end at `block.stop`, because
delimiter bytes are omitted from runs. -/
theorem C8_paragraph_run_coverage (ext : Externals) (bc : BlockCacheM)
    (gb : Buf) (w hgt : Nat) (b : Block) (runs : List InlineRun)
    (hb : b ∈ (block_cache_parse ext bc gb w hgt).blocks)
    (hd : b.data = BlockData.paragraph runs) :
    (∀ r ∈ runs, b.start ≤ r.byte_start ∧ r.byte_start < r.byte_end ∧
      r.byte_end ≤ b.stop) ∧
    runs_chain runs ∧ runs_cover gb runs b.start b.stop := by
  have hb2 : b ∈ block_cache_parse_go ext gb w hgt gb.length 0 0 := hb
  obtain ⟨hlt, hstop, hruns⟩ :=
    block_cache_parse_go_paragraph ext gb w hgt gb.length 0 0 b hb2 runs hd
  have hpb := parse_paragraph_end_bounds gb b.start hlt
  have hchar := parse_paragraph_end_char gb b.start (Nat.le_of_lt hlt)
  have hend : b.stop = gb.length ∨
      (b.stop ≤ gb.length ∧ 0 < b.stop ∧ gap_at gb (b.stop - 1) = 10) := by
    rw [hstop]
    rcases hchar with hc | hc
    · exact Or.inl hc
    · exact Or.inr ⟨hpb.2, hc.1, hc.2⟩
  have hspec := block_parse_inline_runs_spec gb b.start b.stop
    (by rw [hstop]; omega) hend
  rw [← hruns] at hspec
  exact hspec

/-- Witness for C8 (amended): the single-paragraph document `"**b**\n"`
parses to one paragraph block `[0, 6)` whose only run is the bold `b` at
`[2, 3)`; the theorem instantiates to its ordering and coverage facts. -/
theorem C8_witness :
    (∀ r ∈ [(⟨2, 3, 1, RunData.text⟩ : InlineRun)],
      0 ≤ r.byte_start ∧ r.byte_start < r.byte_end ∧ r.byte_end ≤ 6) ∧
    runs_chain [⟨2, 3, 1, RunData.text⟩] ∧
    runs_cover [42, 42, 98, 42, 42, 10] [⟨2, 3, 1, RunData.text⟩] 0 6 := by
  exact C8_paragraph_run_coverage ext0 block_cache_init
    [42, 42, 98, 42, 42, 10] 80 24
    ⟨BlockData.paragraph [⟨2, 3, 1, RunData.text⟩], 0, 6, 0, 1⟩
    [⟨2, 3, 1, RunData.text⟩] (by decide) (by decide)

/-- Counterexample for C8 as stated: in the document `"**b**\n"` the unique
paragraph block spans `[0, 6)` but its only run is `[2, 3)` — the first run
does not start at `block.start`, the last run does not end at `block.end`,
and the uncovered byte 0 is `*` (42), not a newline. -/
theorem C8_counterexample :
    (block_cache_parse ext0 block_cache_init [42, 42, 98, 42, 42, 10]
        80 24).blocks =
      [⟨BlockData.paragraph [⟨2, 3, 1, RunData.text⟩], 0, 6, 0, 1⟩] ∧
    block_parse_inline_runs [42, 42, 98, 42, 42, 10] 0 6 =
      [⟨2, 3, 1, RunData.text⟩] ∧
    (2 : Nat) ≠ 0 ∧ (3 : Nat) ≠ 6 ∧
    gap_at [42, 42, 98, 42, 42, 10] 0 = 42 := by
  decide

-- #endregion
